import Mathlib

/-!
Verification of the retworkx-backed multigraph library.

The storage engine used by the repository is retworkx's `PyDiGraph`; the
wrapper classes `RetworkXMultiDiGraph` (base.py), `RetworkXCanonicalMultiDiGraph`
(canonical.py) and `RetworkXStrCanonicalMultiDiGraph` (str_canonical.py)
delegate structural operations to it.  The store itself is therefore modelled
from the spec (section 4.1 GraphStore); all layer logic (edge de-duplication,
integrity checking, id rewriting on deserialization, the string id map, the
algorithms wrappers of api.py) is embedded directly from the Python source.
-/

/-- Error kinds raised by the Python code: `NotFound`-style lookups
(`IndexError`/`NoSuchNode`), `NoEdgeBetweenNodes`, dictionary `KeyError`,
`ValueError` (duplicate key on `update_edge`), and `NullGraph` from the
connectivity queries. -/
inductive PyErr where
  | notFound
  | noEdgeBetweenNodes
  | keyError
  | valueError
  | nullGraph
deriving DecidableEq, Repr

/-- Node payload for the integer-keyed canonical layer: `BaseRichNode[int]`
(an `id` field) plus opaque content, modelled as a string label. -/
structure NData where
  id : Nat
  label : String
deriving DecidableEq, Repr, Inhabited

/-- Edge payload for the integer-keyed canonical layer: `BaseRichEdge[int]`
(`id`, `source`, `target`, `key`) plus opaque content. -/
structure EData where
  id : Nat
  source : Nat
  target : Nat
  key : String
  label : String
deriving DecidableEq, Repr, Inhabited

/-- Node payload for the string layer: `BaseRichNode[str]` (string `id`). -/
structure SData where
  id : String
  label : String
deriving DecidableEq, Repr, Inhabited

/-- Edge payload for the string layer: `BaseRichEdge[str]`
(integer edge `id`, string `source`/`target`, `key`). -/
structure SEData where
  id : Nat
  source : String
  target : String
  key : String
  label : String
deriving DecidableEq, Repr, Inhabited

/-- One stored edge slot: storage-assigned index `eid`, recorded endpoints
`src`/`tgt`, and the payload. -/
structure StoredEdge (E : Type) where
  eid : Nat
  src : Nat
  tgt : Nat
  data : E
deriving DecidableEq, Repr

/-- Modelled from the spec: the GraphStore (retworkx `PyDiGraph`, external to
src/).  Arena-based storage with monotone id counters; removed slots simply
disappear from the lists while the counters keep growing, so ids of removed
entities are never reassigned (spec section 4.1 and section 9, tombstoned
removal).  `issuedNodeIds`/`issuedEdgeIds` record every id ever handed out
(ghost state used only to state the id-stability claims). -/
structure Store (N E : Type) where
  nodes : List (Nat × N)
  edges : List (StoredEdge E)
  nextNodeId : Nat
  nextEdgeId : Nat
  issuedNodeIds : List Nat
  issuedEdgeIds : List Nat
deriving DecidableEq, Repr

namespace Store

variable {N E : Type}

/-- The empty store. -/
def empty : Store N E := ⟨[], [], 0, 0, [], []⟩

/-- Live node ids, in ascending (insertion) order. -/
def nodeIds (g : Store N E) : List Nat := g.nodes.map Prod.fst

/-- `num_nodes`. -/
def num_nodes (g : Store N E) : Nat := g.nodes.length

/-- `num_edges`. -/
def num_edges (g : Store N E) : Nat := g.edges.length

/-- `has_node`: true iff the id denotes a live node. -/
def has_node (g : Store N E) (nid : Nat) : Bool := g.nodes.any (fun p => p.1 == nid)

/-- `get_node_data`, returning `none` where Python raises `IndexError`. -/
def get_node_data (g : Store N E) (nid : Nat) : Option N :=
  (g.nodes.find? (fun p => p.1 == nid)).map Prod.snd

/-- Modelled from the spec: `add_node` appends to the node arena and returns a
fresh id strictly greater than any previously issued id. -/
def add_node (g : Store N E) (n : N) : Store N E × Nat :=
  (⟨g.nodes ++ [(g.nextNodeId, n)], g.edges, g.nextNodeId + 1, g.nextEdgeId,
    g.issuedNodeIds ++ [g.nextNodeId], g.issuedEdgeIds⟩, g.nextNodeId)

/-- Modelled from the spec: `add_edge` fails with `NotFound` if either endpoint
is absent, otherwise appends an edge slot with a fresh never-reused id. -/
def add_edge (g : Store N E) (u v : Nat) (e : E) : Except PyErr (Store N E × Nat) :=
  if g.has_node u && g.has_node v then
    .ok (⟨g.nodes, g.edges ++ [⟨g.nextEdgeId, u, v, e⟩], g.nextNodeId,
      g.nextEdgeId + 1, g.issuedNodeIds, g.issuedEdgeIds ++ [g.nextEdgeId]⟩,
      g.nextEdgeId)
  else .error .notFound

/-- Modelled from the spec: `remove_node` is a no-op on an absent id; otherwise
it removes the node and cascades removal of every incident edge. -/
def remove_node (g : Store N E) (nid : Nat) : Store N E :=
  { g with
    nodes := g.nodes.filter (fun p => p.1 ≠ nid),
    edges := g.edges.filter (fun se => se.src ≠ nid ∧ se.tgt ≠ nid) }

/-- Modelled from the spec: `remove_edge_from_index` removes one edge slot and
is a no-op on an absent id. -/
def remove_edge (g : Store N E) (eid : Nat) : Store N E :=
  { g with edges := g.edges.filter (fun se => se.eid ≠ eid) }

/-- `get_edge_data_by_index`: the stored slot for an edge id, if live. -/
def getEdgeByIndex (g : Store N E) (eid : Nat) : Option (StoredEdge E) :=
  g.edges.find? (fun se => se.eid == eid)

/-- `update_edge_by_index`: replace the payload at an edge id in place; fails
with `NotFound` (an `IndexError` in Python) if the id is absent. -/
def update_edge_by_index (g : Store N E) (eid : Nat) (e : E) : Except PyErr (Store N E) :=
  match g.getEdgeByIndex eid with
  | none => .error .notFound
  | some _ =>
    .ok { g with
      edges := g.edges.map (fun se => if se.eid = eid then { se with data := e } else se) }

/-- `self._graph[nid] = node`: replace a node payload in place; fails with
`NotFound` if the id is absent. -/
def update_node_by_index (g : Store N E) (nid : Nat) (n : N) : Except PyErr (Store N E) :=
  if g.has_node nid then
    .ok { g with nodes := g.nodes.map (fun p => if p.1 = nid then (nid, n) else p) }
  else .error .notFound

/-- `get_all_edge_data u v` as a plain list (Python raises `NoEdgeBetweenNodes`
on the empty case; the callers embedded below branch on emptiness instead).
Adjacency order is edge-insertion order (spec section 3). -/
def edgesBetween (g : Store N E) (u v : Nat) : List E :=
  (g.edges.filter (fun se => se.src = u ∧ se.tgt = v)).map StoredEdge.data

/-- Out-neighbor ids of a node, in edge-insertion order. -/
def outTargets (g : Store N E) (v : Nat) : List Nat :=
  (g.edges.filter (fun se => se.src = v)).map StoredEdge.tgt

/-- Directed adjacency test (at least one `a → b` edge). -/
def dirAdj (g : Store N E) (a b : Nat) : Bool :=
  g.edges.any (fun se => se.src == a && se.tgt == b)

/-- Undirected adjacency test: edge in either direction. -/
def undirAdj (g : Store N E) (a b : Nat) : Bool :=
  g.dirAdj a b || g.dirAdj b a

/-- Structural equality of stores, as implemented by `__eq__` in base.py:
the same live (id, payload) node map and the same edge index map, iteration
order irrelevant.  With unique ids, equality of the finite maps is equality of
the underlying association lists up to permutation. -/
def structEq (g h : Store N E) : Prop :=
  g.nodes.Perm h.nodes ∧ g.edges.Perm h.edges

/-- Basic well-formedness of a store: live ids and ghost-issued ids are below
the counters, live ids were issued, and ids are duplicate-free. -/
structure WF (g : Store N E) : Prop where
  nodesLt : ∀ p ∈ g.nodes, p.1 < g.nextNodeId
  edgesLt : ∀ se ∈ g.edges, se.eid < g.nextEdgeId
  issuedNodesLt : ∀ i ∈ g.issuedNodeIds, i < g.nextNodeId
  issuedEdgesLt : ∀ i ∈ g.issuedEdgeIds, i < g.nextEdgeId
  nodesIssued : ∀ p ∈ g.nodes, p.1 ∈ g.issuedNodeIds
  edgesIssued : ∀ se ∈ g.edges, se.eid ∈ g.issuedEdgeIds
  nodeIdsNodup : (g.nodes.map Prod.fst).Nodup
  edgeIdsNodup : (g.edges.map StoredEdge.eid).Nodup

end Store

/-! ## The canonical identity layer (canonical.py) -/

/-- The integer-keyed canonical graph: a store of rich payloads. -/
abbrev CGraph : Type := Store NData EData

namespace Canonical

/-- `RetworkXCanonicalMultiDiGraph.add_node`: insert via the store and write
the assigned id into the payload's `id` field (the payload object stored and
the one returned are the same object, so the stored payload carries the new
id). -/
def add_node (g : CGraph) (n : NData) : CGraph × Nat :=
  ((Store.add_node g { n with id := g.nextNodeId }).1, g.nextNodeId)

/-- `RetworkXCanonicalMultiDiGraph.add_edge` (canonical.py lines 41-55): scan
the parallel edges between `edge.source` and `edge.target` for one with the
same `key`; if found return its payload's `id` and insert nothing, else insert
via the store and write the assigned id into the payload. -/
def add_edge (g : CGraph) (e : EData) : Except PyErr (CGraph × Nat) :=
  match (g.edgesBetween e.source e.target).filter (fun d => d.key == e.key) with
  | m :: _ => .ok (g, m.id)
  | [] =>
    match Store.add_edge g e.source e.target { e with id := g.nextEdgeId } with
    | .error err => .error err
    | .ok (g', eid) => .ok (g', eid)

/-- `has_edge_between_nodes` (key-qualified, canonical.py lines 106-113). -/
def has_edge_between_nodes (g : CGraph) (u v : Nat) (key : String) : Bool :=
  (g.edgesBetween u v).any (fun d => d.key == key)

/-- `get_edge_between_nodes` (canonical.py lines 115-127): key-qualified
lookup; raises `KeyError` when no edge between the pair carries the key. -/
def get_edge_between_nodes (g : CGraph) (u v : Nat) (key : String) : Except PyErr EData :=
  match (g.edgesBetween u v).filter (fun d => d.key == key) with
  | [] => .error .keyError
  | m :: _ => .ok m

/-- `remove_edge_between_nodes` (canonical.py lines 100-104): looks the edge up
with `get_edge_between_nodes` — which raises `KeyError` when absent, making the
`if edge is not None` guard dead code — then removes it by id. -/
def remove_edge_between_nodes (g : CGraph) (u v : Nat) (key : String) :
    Except PyErr CGraph :=
  match get_edge_between_nodes g u v key with
  | .error err => .error err
  | .ok e => .ok (Store.remove_edge g e.id)

/-- `RetworkXCanonicalMultiDiGraph.update_edge` (canonical.py lines 57-66):
fetch the stored payload at `edge.id` (`NotFound` if absent); if the key
changes and some edge between `edge.source`/`edge.target` already has the new
key, raise `ValueError` without mutating; otherwise replace the payload at
`edge.id` in place. -/
def update_edge (g : CGraph) (e : EData) : Except PyErr CGraph :=
  match g.getEdgeByIndex e.id with
  | none => .error .notFound
  | some old =>
    if old.data.key ≠ e.key ∧ has_edge_between_nodes g e.source e.target e.key then
      .error .valueError
    else
      Store.update_edge_by_index g e.id e

/-- `check_integrity` (canonical.py lines 129-138): every live node's payload
id equals its storage id, and every live edge's payload (id, source, target)
equals the storage-recorded triple. -/
def check_integrity (g : CGraph) : Bool :=
  g.nodes.all (fun p => p.2.id == p.1) &&
  g.edges.all (fun se => se.data.id == se.eid && se.data.source == se.src &&
    se.data.target == se.tgt)

/-- The loop of `__setstate__` (canonical.py lines 140-147): after the store is
reloaded, rewrite every edge payload's `id` field to its storage-assigned
index. -/
def setstateFix (g : CGraph) : CGraph :=
  { g with edges := g.edges.map (fun se => { se with data := { se.data with id := se.eid } }) }

end Canonical

/-! ## The string identity layer (str_canonical.py) -/

/-- A Python `dict[str, int]` modelled as an association list whose keys stay
duplicate-free: insertion overwrites an existing binding in place, deletion
filters it out. -/
abbrev IdMap : Type := List (String × Nat)

namespace IdMap

/-- `m[k]` as an option (Python raises `KeyError` on a missing key). -/
def lookup (m : IdMap) (k : String) : Option Nat :=
  (m.find? (fun p => p.1 == k)).map Prod.snd

/-- `m[k] = v`: overwrite the binding if the key is present, append otherwise. -/
def insert (m : IdMap) (k : String) (v : Nat) : IdMap :=
  if (m.find? (fun p => p.1 == k)).isSome then
    m.map (fun p => if p.1 = k then (k, v) else p)
  else m ++ [(k, v)]

/-- `m.pop(k)` without its return value: drop the binding. -/
def erase (m : IdMap) (k : String) : IdMap :=
  m.filter (fun p => p.1 ≠ k)

end IdMap

/-- The string-keyed canonical graph: the wrapped store plus the
string-id-to-integer-index map (`self.idmap`). -/
structure SGraph where
  graph : Store SData SEData
  idmap : IdMap
deriving DecidableEq, Repr

namespace StrCanonical

/-- The empty string-keyed graph. -/
def empty : SGraph := ⟨Store.empty, []⟩

/-- `RetworkXStrCanonicalMultiDiGraph.add_node`: insert into the store and
register the payload's string id against the assigned internal index. -/
def add_node (g : SGraph) (n : SData) : SGraph × String :=
  let r := Store.add_node g.graph n
  (⟨r.1, g.idmap.insert n.id r.2⟩, n.id)

/-- `RetworkXStrCanonicalMultiDiGraph.has_node`: membership in the id map. -/
def has_node (g : SGraph) (nid : String) : Bool :=
  (g.idmap.lookup nid).isSome

/-- `get_all_edge_data` seen through the id map, as used inside `add_edge`. -/
def edgesBetweenInternal (g : SGraph) (uid vid : Nat) : List SEData :=
  g.graph.edgesBetween uid vid

/-- `RetworkXStrCanonicalMultiDiGraph.add_edge` (str_canonical.py lines
39-65): translate the payload's string endpoints through `idmap` (`KeyError`
if unmapped, not caught), scan the parallel edges for one with the same key
and return its payload id if found, otherwise insert via the store and write
the assigned id into the payload. -/
def add_edge (g : SGraph) (e : SEData) : Except PyErr (SGraph × Nat) :=
  match g.idmap.lookup e.source with
  | none => .error .keyError
  | some uid =>
    match g.idmap.lookup e.target with
    | none => .error .keyError
    | some vid =>
      match (edgesBetweenInternal g uid vid).filter (fun d => d.key == e.key) with
      | m :: _ => .ok (g, m.id)
      | [] =>
        match Store.add_edge g.graph uid vid { e with id := g.graph.nextEdgeId } with
        | .error err => .error err
        | .ok (g', eid) => .ok (⟨g', g.idmap⟩, eid)

/-- `RetworkXStrCanonicalMultiDiGraph.remove_node` (str_canonical.py lines
67-69): `self._graph.remove_node(self.idmap.pop(nid))` — `idmap.pop` raises
`KeyError` when the string id is unmapped, despite the docstring promising a
no-op. -/
def remove_node (g : SGraph) (nid : String) : Except PyErr SGraph :=
  match g.idmap.lookup nid with
  | none => .error .keyError
  | some i => .ok ⟨Store.remove_node g.graph i, g.idmap.erase nid⟩

/-- `has_edge_between_nodes` (str_canonical.py lines 162-172): key-qualified;
both `NoEdgeBetweenNodes` and `KeyError` (unmapped strings) yield `False`. -/
def has_edge_between_nodes (g : SGraph) (u v : String) (key : String) : Bool :=
  match g.idmap.lookup u, g.idmap.lookup v with
  | some uid, some vid => (g.graph.edgesBetween uid vid).any (fun d => d.key == key)
  | _, _ => false

/-- `get_edge_between_nodes` (str_canonical.py lines 174-188): `KeyError` when
the strings are unmapped or no edge between the pair carries the key. -/
def get_edge_between_nodes (g : SGraph) (u v : String) (key : String) :
    Except PyErr SEData :=
  match g.idmap.lookup u, g.idmap.lookup v with
  | some uid, some vid =>
    match (g.graph.edgesBetween uid vid).filter (fun d => d.key == key) with
    | [] => .error .keyError
    | m :: _ => .ok m
  | _, _ => .error .keyError

/-- `remove_edge_between_nodes` (str_canonical.py lines 156-160): same dead
`if edge is not None` pattern as the integer layer; the lookup raises
`KeyError` when the edge is absent. -/
def remove_edge_between_nodes (g : SGraph) (u v : String) (key : String) :
    Except PyErr SGraph :=
  match get_edge_between_nodes g u v key with
  | .error err => .error err
  | .ok e => .ok ⟨Store.remove_edge g.graph e.id, g.idmap⟩

/-- `RetworkXStrCanonicalMultiDiGraph.update_edge` (str_canonical.py lines
75-84): fetch the stored payload at `edge.id` (`NotFound` if absent); if the
key changes and `has_edge_between_nodes(edge.source, edge.target, edge.key)`,
raise `ValueError` without mutating; otherwise replace the payload in place. -/
def update_edge (g : SGraph) (e : SEData) : Except PyErr SGraph :=
  match g.graph.getEdgeByIndex e.id with
  | none => .error .notFound
  | some old =>
    if old.data.key ≠ e.key ∧ has_edge_between_nodes g e.source e.target e.key then
      .error .valueError
    else
      match Store.update_edge_by_index g.graph e.id e with
      | .error err => .error err
      | .ok g' => .ok ⟨g', g.idmap⟩

/-- `check_integrity` (str_canonical.py lines 190-205): the id map has exactly
one entry per live node, each live node's payload string id maps to its
storage index, and each live edge's payload (id, source, target) matches the
storage-recorded triple through the id map. -/
def check_integrity (g : SGraph) : Bool :=
  (g.graph.num_nodes == g.idmap.length) &&
  g.graph.nodes.all (fun p => g.idmap.lookup p.2.id == some p.1) &&
  g.graph.edges.all (fun se => se.data.id == se.eid &&
    g.idmap.lookup se.data.source == some se.src &&
    g.idmap.lookup se.data.target == some se.tgt)

/-- The loop of `__setstate__` (str_canonical.py lines 207-214): rewrite every
edge payload's `id` field to its storage-assigned index; the id map is
restored verbatim from the pickled state. -/
def setstateFix (g : SGraph) : SGraph :=
  ⟨{ g.graph with
      edges := g.graph.edges.map (fun se => { se with data := { se.data with id := se.eid } }) },
    g.idmap⟩

end StrCanonical

/-! ## The object-level effect of `copy()` on the string layer

`RetworkXMultiDiGraph.copy` (base.py lines 172-176) builds the new wrapper by
shallow-copying `__dict__` and then replacing `_graph` with `self._graph.copy()`.
For the string layer, `__dict__` also holds `idmap`, and a shallow dict copy
keeps the *same* `idmap` object in both wrappers.  `SAliased` models the pair
of wrapper objects after `copy()`: two independent stores, one shared id map. -/

structure SAliased where
  origStore : Store SData SEData
  copyStore : Store SData SEData
  sharedIdmap : IdMap
deriving DecidableEq, Repr

namespace SAliased

/-- `g.copy()` on a string-layer graph: the store is duplicated, the id map is
shared by both resulting wrapper objects. -/
def ofCopy (g : SGraph) : SAliased := ⟨g.graph, g.graph, g.idmap⟩

/-- The original wrapper's observable state after the copy. -/
def orig (p : SAliased) : SGraph := ⟨p.origStore, p.sharedIdmap⟩

/-- The copied wrapper's observable state after the copy. -/
def copied (p : SAliased) : SGraph := ⟨p.copyStore, p.sharedIdmap⟩

/-- Running `remove_node` on the copied wrapper: `idmap.pop` mutates the shared
dictionary, `remove_node` mutates only the copy's store. -/
def removeNodeOnCopy (p : SAliased) (nid : String) : Except PyErr SAliased :=
  match p.sharedIdmap.lookup nid with
  | none => .error .keyError
  | some i => .ok ⟨p.origStore, Store.remove_node p.copyStore i, p.sharedIdmap.erase nid⟩

end SAliased

/-! ## Operation sequences over the store (for the id-stability claims) -/

/-- One mutating operation of a session, at the store level (base.py
delegations `add_node` / `remove_node` / `add_edge` / `remove_edge`). -/
inductive GOp (N E : Type) where
  | addNode (n : N)
  | removeNode (i : Nat)
  | addEdge (u v : Nat) (e : E)
  | removeEdge (i : Nat)

/-- Apply one operation; besides the new state, report the node id returned by
`add_node` and the edge id returned by `add_edge` (when any).  A failing
`add_edge` leaves the state unchanged (the Python exception propagates before
any mutation). -/
def applyOp {N E : Type} (g : Store N E) : GOp N E → Store N E × Option Nat × Option Nat
  | .addNode n => ((Store.add_node g n).1, some (Store.add_node g n).2, none)
  | .removeNode i => (Store.remove_node g i, none, none)
  | .addEdge u v e =>
    match Store.add_edge g u v e with
    | .ok (g', eid) => (g', none, some eid)
    | .error _ => (g, none, none)
  | .removeEdge i => (Store.remove_edge g i, none, none)

/-- Run a sequence of operations, collecting every node id returned by
`add_node` and every edge id returned by `add_edge`, in order. -/
def runOps {N E : Type} : Store N E → List (GOp N E) → Store N E × List Nat × List Nat
  | g, [] => (g, [], [])
  | g, op :: ops =>
    ((runOps (applyOp g op).1 ops).1,
     (applyOp g op).2.1.toList ++ (runOps (applyOp g op).1 ops).2.1,
     (applyOp g op).2.2.toList ++ (runOps (applyOp g op).1 ops).2.2)

/-- No operation ever decreases the id counters. -/
theorem applyOp_counters_mono {N E : Type} (g : Store N E) (op : GOp N E) :
    g.nextNodeId ≤ (applyOp g op).1.nextNodeId ∧
    g.nextEdgeId ≤ (applyOp g op).1.nextEdgeId := by
  cases op with
  | addNode n => exact ⟨Nat.le_succ _, Nat.le_refl _⟩
  | removeNode i => exact ⟨Nat.le_refl _, Nat.le_refl _⟩
  | addEdge u v e =>
    unfold applyOp Store.add_edge
    by_cases h : (g.has_node u && g.has_node v) = true
    · simp [h]
    · simp [h]
  | removeEdge i => exact ⟨Nat.le_refl _, Nat.le_refl _⟩

/-- Every node id returned during a run is at least the starting node counter,
and similarly for edge ids. -/
theorem runOps_returns_ge {N E : Type} (ops : List (GOp N E)) (g : Store N E) :
    (∀ r ∈ (runOps g ops).2.1, g.nextNodeId ≤ r) ∧
    (∀ r ∈ (runOps g ops).2.2, g.nextEdgeId ≤ r) := by
  induction ops generalizing g with
  | nil => simp [runOps]
  | cons op ops ih =>
    have hmono := applyOp_counters_mono g op
    have ihg := ih (applyOp g op).1
    constructor
    · intro r hr
      simp only [runOps, List.mem_append] at hr
      rcases hr with hr | hr
      · cases op with
        | addNode n =>
          simp [applyOp, Store.add_node] at hr
          omega
        | removeNode i => simp [applyOp] at hr
        | addEdge u v e =>
          simp only [applyOp] at hr
          rcases h : Store.add_edge g u v e with err | p
          · rw [h] at hr; simp at hr
          · rw [h] at hr; simp at hr
        | removeEdge i => simp [applyOp] at hr
      · exact le_trans hmono.1 (ihg.1 r hr)
    · intro r hr
      simp only [runOps, List.mem_append] at hr
      rcases hr with hr | hr
      · cases op with
        | addNode n => simp [applyOp] at hr
        | removeNode i => simp [applyOp] at hr
        | addEdge u v e =>
          simp only [applyOp] at hr
          rcases h : Store.add_edge g u v e with err | p
          · rw [h] at hr; simp at hr
          · rw [h] at hr
            simp at hr
            subst hr
            obtain ⟨gp, ep⟩ := p
            unfold Store.add_edge at h
            by_cases hc : (g.has_node u && g.has_node v) = true
            · simp [hc] at h
              obtain ⟨h1, h2⟩ := h
              omega
            · simp [hc] at h
        | removeEdge i => simp [applyOp] at hr
      · exact le_trans hmono.2 (ihg.2 r hr)

/-- The node ids returned across a run are strictly increasing, and so are the
edge ids. -/
theorem runOps_returns_pairwise {N E : Type} (ops : List (GOp N E)) (g : Store N E) :
    List.Pairwise (· < ·) (runOps g ops).2.1 ∧
    List.Pairwise (· < ·) (runOps g ops).2.2 := by
  induction ops generalizing g with
  | nil => simp [runOps]
  | cons op ops ih =>
    simp only [runOps]
    cases op with
    | addNode n =>
      have hstate : applyOp g (GOp.addNode n) =
          ((Store.add_node g n).1, some (Store.add_node g n).2, none) := rfl
      rw [hstate]
      simp only [Option.toList_some, Option.toList_none, List.singleton_append,
        List.nil_append]
      refine ⟨List.pairwise_cons.mpr ⟨?_, (ih _).1⟩, (ih _).2⟩
      intro r hr
      have := (runOps_returns_ge ops (Store.add_node g n).1).1 r hr
      simp [Store.add_node] at this ⊢
      omega
    | removeNode i =>
      have hstate : applyOp g (GOp.removeNode i) = (Store.remove_node g i, none, none) := rfl
      rw [hstate]
      simpa using ⟨(ih _).1, (ih _).2⟩
    | removeEdge i =>
      have hstate : applyOp g (GOp.removeEdge i) = (Store.remove_edge g i, none, none) := rfl
      rw [hstate]
      simpa using ⟨(ih _).1, (ih _).2⟩
    | addEdge u v e =>
      rcases h : Store.add_edge g u v e with err | p
      · have hstate : applyOp g (GOp.addEdge u v e) = (g, none, none) := by
          simp [applyOp, h]
        rw [hstate]
        simpa using ⟨(ih _).1, (ih _).2⟩
      · obtain ⟨gp, ep⟩ := p
        have hstate : applyOp g (GOp.addEdge u v e) = (gp, none, some ep) := by
          simp [applyOp, h]
        rw [hstate]
        simp only [Option.toList_some, Option.toList_none, List.singleton_append,
          List.nil_append]
        refine ⟨(ih _).1, List.pairwise_cons.mpr ⟨?_, (ih _).2⟩⟩
        intro r hr
        have hge := (runOps_returns_ge ops gp).2 r hr
        unfold Store.add_edge at h
        by_cases hc : (g.has_node u && g.has_node v) = true
        · simp [hc] at h
          obtain ⟨h1, h2⟩ := h
          subst h1
          simp at hge
          omega
        · simp [hc] at h

/-- The empty store is well-formed. -/
theorem wf_empty {N E : Type} : (Store.empty : Store N E).WF := by
  constructor <;> simp [Store.empty]

/-- C2: within one session, every id returned by `add_node` is strictly greater
than any id previously issued — both the ids issued before the run (live or
removed, recorded in the ghost `issuedNodeIds`) and the ids returned earlier in
the run (the returned lists are strictly increasing).  Hence a removed node's
id is never reassigned, and the same holds for edge ids. -/
theorem c2_ids_never_reused {N E : Type} (g : Store N E) (ops : List (GOp N E))
    (hwf : g.WF) :
    List.Pairwise (· < ·) (runOps g ops).2.1 ∧
    List.Pairwise (· < ·) (runOps g ops).2.2 ∧
    (∀ r ∈ (runOps g ops).2.1, ∀ i ∈ g.issuedNodeIds, i < r) ∧
    (∀ r ∈ (runOps g ops).2.2, ∀ i ∈ g.issuedEdgeIds, i < r) := by
  refine ⟨(runOps_returns_pairwise ops g).1, (runOps_returns_pairwise ops g).2, ?_, ?_⟩
  · intro r hr i hi
    exact lt_of_lt_of_le (hwf.issuedNodesLt i hi) ((runOps_returns_ge ops g).1 r hr)
  · intro r hr i hi
    exact lt_of_lt_of_le (hwf.issuedEdgesLt i hi) ((runOps_returns_ge ops g).2 r hr)

/-- A concrete session exercising C2: add two nodes, remove node 0, add a
third node and two parallel edges, remove edge 0, add another edge. -/
def c2ops : List (GOp NData EData) :=
  [GOp.addNode ⟨0, "a"⟩, GOp.addNode ⟨0, "b"⟩, GOp.removeNode 0,
   GOp.addNode ⟨0, "c"⟩, GOp.addEdge 1 2 ⟨0, 1, 2, "x", ""⟩,
   GOp.removeEdge 0, GOp.addEdge 1 2 ⟨0, 1, 2, "y", ""⟩]

theorem c2_ids_never_reused_witness :
    List.Pairwise (· < ·) (runOps (Store.empty : Store NData EData) c2ops).2.1 ∧
    List.Pairwise (· < ·) (runOps (Store.empty : Store NData EData) c2ops).2.2 ∧
    (∀ r ∈ (runOps (Store.empty : Store NData EData) c2ops).2.1,
      ∀ i ∈ (Store.empty : Store NData EData).issuedNodeIds, i < r) ∧
    (∀ r ∈ (runOps (Store.empty : Store NData EData) c2ops).2.2,
      ∀ i ∈ (Store.empty : Store NData EData).issuedEdgeIds, i < r) :=
  c2_ids_never_reused Store.empty c2ops wf_empty

/-! ## C1: idempotent de-duplicating `add_edge` -/

/-- `edgesBetween` reads only the edge list. -/
theorem edgesBetween_congr {N E : Type} (g h : Store N E) (he : g.edges = h.edges)
    (u v : Nat) : Store.edgesBetween g u v = Store.edgesBetween h u v := by
  unfold Store.edgesBetween
  rw [he]

/-- Filtering the payloads between a pair out of an extended edge list. -/
theorem edgesBetween_append {N E : Type} (g : Store N E) (se : StoredEdge E)
    (u v : Nat) :
    Store.edgesBetween { g with edges := g.edges ++ [se] } u v =
      Store.edgesBetween g u v ++
        (if se.src = u ∧ se.tgt = v then [se.data] else []) := by
  unfold Store.edgesBetween
  simp only [List.filter_append, List.map_append]
  by_cases h : se.src = u ∧ se.tgt = v
  · simp [h]
  · simp [List.filter_cons, h]

/-- C1: de-duplication of `add_edge` on both canonical layers.  First/third
conjunct: when an edge with the same (source, target, key) triple is already
stored between the payload's endpoints, `add_edge` returns the first matching
stored payload's id and leaves the graph unchanged.  Second/fourth conjunct:
adding an edge with the same (source, target, key) twice returns the same id
both times and leaves the state — hence `num_edges()` — unchanged on the
second call. -/
theorem c1_add_edge_idempotent_dedup :
    (∀ (g : CGraph) (e m : EData) (rest : List EData),
      (g.edgesBetween e.source e.target).filter (fun d => d.key == e.key) = m :: rest →
      Canonical.add_edge g e = .ok (g, m.id)) ∧
    (∀ (g g₁ : CGraph) (e e₂ : EData) (i : Nat),
      e₂.source = e.source → e₂.target = e.target → e₂.key = e.key →
      Canonical.add_edge g e = .ok (g₁, i) →
      Canonical.add_edge g₁ e₂ = .ok (g₁, i)) ∧
    (∀ (g : SGraph) (e m : SEData) (rest : List SEData) (uid vid : Nat),
      g.idmap.lookup e.source = some uid → g.idmap.lookup e.target = some vid →
      (g.graph.edgesBetween uid vid).filter (fun d => d.key == e.key) = m :: rest →
      StrCanonical.add_edge g e = .ok (g, m.id)) ∧
    (∀ (g g₁ : SGraph) (e e₂ : SEData) (i : Nat),
      e₂.source = e.source → e₂.target = e.target → e₂.key = e.key →
      StrCanonical.add_edge g e = .ok (g₁, i) →
      StrCanonical.add_edge g₁ e₂ = .ok (g₁, i)) := by
  refine ⟨?_, ?_, ?_, ?_⟩
  · intro g e m rest hfil
    unfold Canonical.add_edge
    rw [hfil]
  · intro g g₁ e e₂ i hs ht hk h
    unfold Canonical.add_edge at h ⊢
    rw [hs, ht, hk]
    rcases hfil : (g.edgesBetween e.source e.target).filter (fun d => d.key == e.key) with
      _ | ⟨m, rest⟩
    · rw [hfil] at h
      dsimp only at h
      unfold Store.add_edge at h
      by_cases hc : (g.has_node e.source && g.has_node e.target) = true
      · rw [if_pos hc] at h
        dsimp only at h
        simp only [Except.ok.injEq, Prod.mk.injEq] at h
        obtain ⟨hg, hi⟩ := h
        subst hi
        have hG : g₁ = { g with
            edges := g.edges ++ [⟨g.nextEdgeId, e.source, e.target,
              { e with id := g.nextEdgeId }⟩],
            nextEdgeId := g.nextEdgeId + 1,
            issuedEdgeIds := g.issuedEdgeIds ++ [g.nextEdgeId] } := hg.symm
        subst hG
        simp only [Store.edgesBetween] at hfil ⊢
        simp only [List.filter_append, List.map_append]
        rw [hfil]
        simp [List.filter_cons]
      · rw [if_neg hc] at h
        exact absurd h (by simp)
    · rw [hfil] at h
      dsimp only at h
      simp only [Except.ok.injEq, Prod.mk.injEq] at h
      obtain ⟨hg, hi⟩ := h
      subst hg
      subst hi
      rw [hfil]
  · intro g e m rest uid vid hu hv hfil
    unfold StrCanonical.add_edge
    rw [hu]
    dsimp only
    rw [hv]
    dsimp only
    unfold StrCanonical.edgesBetweenInternal
    rw [hfil]
  · intro g g₁ e e₂ i hs ht hk h
    unfold StrCanonical.add_edge at h ⊢
    rw [hs, ht, hk]
    rcases hu : g.idmap.lookup e.source with _ | uid
    · rw [hu] at h
      exact absurd h (by simp)
    rw [hu] at h
    dsimp only at h
    rcases hv : g.idmap.lookup e.target with _ | vid
    · rw [hv] at h
      exact absurd h (by simp)
    rw [hv] at h
    dsimp only at h
    unfold StrCanonical.edgesBetweenInternal at h
    rcases hfil : (g.graph.edgesBetween uid vid).filter (fun d => d.key == e.key) with
      _ | ⟨m, rest⟩
    · rw [hfil] at h
      dsimp only at h
      unfold Store.add_edge at h
      by_cases hc : (g.graph.has_node uid && g.graph.has_node vid) = true
      · rw [if_pos hc] at h
        dsimp only at h
        simp only [Except.ok.injEq, Prod.mk.injEq] at h
        obtain ⟨hg, hi⟩ := h
        subst hi
        have hG : g₁ = ⟨{ g.graph with
            edges := g.graph.edges ++ [⟨g.graph.nextEdgeId, uid, vid,
              { e with id := g.graph.nextEdgeId }⟩],
            nextEdgeId := g.graph.nextEdgeId + 1,
            issuedEdgeIds := g.graph.issuedEdgeIds ++ [g.graph.nextEdgeId] },
            g.idmap⟩ := hg.symm
        subst hG
        rw [hu]
        dsimp only
        rw [hv]
        dsimp only
        unfold StrCanonical.edgesBetweenInternal
        simp only [Store.edgesBetween] at hfil ⊢
        simp only [List.filter_append, List.map_append]
        rw [hfil]
        simp [List.filter_cons]
      · rw [if_neg hc] at h
        exact absurd h (by simp)
    · rw [hfil] at h
      dsimp only at h
      simp only [Except.ok.injEq, Prod.mk.injEq] at h
      obtain ⟨hg, hi⟩ := h
      subst hg
      subst hi
      rw [hu]
      dsimp only
      rw [hv]
      dsimp only
      unfold StrCanonical.edgesBetweenInternal
      rw [hfil]

/-- A two-node integer canonical graph (node ids 0 and 1). -/
def cW0 : CGraph :=
  (Canonical.add_node (Canonical.add_node Store.empty ⟨0, "a"⟩).1 ⟨0, "b"⟩).1

def eW : EData := ⟨99, 0, 1, "k", "x"⟩

def eW2 : EData := ⟨77, 0, 1, "k", "y"⟩

/-- `cW0` after the first `add_edge eW`. -/
def cW1 : CGraph :=
  match Canonical.add_edge cW0 eW with
  | .ok p => p.1
  | .error _ => Store.empty

/-- A two-node string canonical graph (node ids "A" and "B"). -/
def sW0 : SGraph :=
  (StrCanonical.add_node (StrCanonical.add_node StrCanonical.empty ⟨"A", "a"⟩).1
    ⟨"B", "b"⟩).1

def esW : SEData := ⟨99, "A", "B", "k", "x"⟩

def esW2 : SEData := ⟨77, "A", "B", "k", "y"⟩

/-- `sW0` after the first `add_edge esW`. -/
def sW1 : SGraph :=
  match StrCanonical.add_edge sW0 esW with
  | .ok p => p.1
  | .error _ => StrCanonical.empty

theorem c1_add_edge_idempotent_dedup_witness :
    Canonical.add_edge cW1 eW = .ok (cW1, 0) ∧
    Canonical.add_edge cW1 eW2 = .ok (cW1, 0) ∧
    StrCanonical.add_edge sW1 esW = .ok (sW1, 0) ∧
    StrCanonical.add_edge sW1 esW2 = .ok (sW1, 0) :=
  ⟨c1_add_edge_idempotent_dedup.1 cW1 eW ⟨0, 0, 1, "k", "x"⟩ [] rfl,
   c1_add_edge_idempotent_dedup.2.1 cW0 cW1 eW eW2 0 rfl rfl rfl rfl,
   c1_add_edge_idempotent_dedup.2.2.1 sW1 esW ⟨0, "A", "B", "k", "x"⟩ [] 0 1 rfl rfl rfl,
   c1_add_edge_idempotent_dedup.2.2.2 sW0 sW1 esW esW2 0 rfl rfl rfl rfl⟩

/-! ## C7 and C10: `update_edge` -/

/-- C7: on both canonical layers, when the payload's key differs from the key
currently stored at `edge.id` and another edge between `edge.source` and
`edge.target` already carries the new key, `update_edge` fails with the
duplicate-key `ValueError` and returns no mutated state; in every other case
it replaces the payload at index `edge.id` in place. -/
theorem c7_update_edge_duplicate_key :
    (∀ (g : CGraph) (e : EData) (old : StoredEdge EData),
      g.getEdgeByIndex e.id = some old →
      ((old.data.key ≠ e.key ∧ Canonical.has_edge_between_nodes g e.source e.target e.key) →
        Canonical.update_edge g e = .error .valueError) ∧
      (¬(old.data.key ≠ e.key ∧ Canonical.has_edge_between_nodes g e.source e.target e.key) →
        Canonical.update_edge g e = .ok { g with
          edges := g.edges.map (fun se => if se.eid = e.id then { se with data := e } else se) })) ∧
    (∀ (g : SGraph) (e : SEData) (old : StoredEdge SEData),
      g.graph.getEdgeByIndex e.id = some old →
      ((old.data.key ≠ e.key ∧ StrCanonical.has_edge_between_nodes g e.source e.target e.key) →
        StrCanonical.update_edge g e = .error .valueError) ∧
      (¬(old.data.key ≠ e.key ∧ StrCanonical.has_edge_between_nodes g e.source e.target e.key) →
        StrCanonical.update_edge g e = .ok ⟨{ g.graph with
          edges := g.graph.edges.map (fun se => if se.eid = e.id then { se with data := e } else se) },
          g.idmap⟩)) := by
  constructor
  · intro g e old hold
    constructor
    · intro hdup
      unfold Canonical.update_edge
      rw [hold]
      dsimp only
      rw [if_pos hdup]
    · intro hnd
      unfold Canonical.update_edge
      rw [hold]
      dsimp only
      rw [if_neg hnd]
      unfold Store.update_edge_by_index
      rw [hold]
  · intro g e old hold
    constructor
    · intro hdup
      unfold StrCanonical.update_edge
      rw [hold]
      dsimp only
      rw [if_pos hdup]
    · intro hnd
      unfold StrCanonical.update_edge
      rw [hold]
      dsimp only
      rw [if_neg hnd]
      unfold Store.update_edge_by_index
      rw [hold]

/-- `cW1` with a second parallel edge 0 → 1 carrying key "k2" (edge id 1). -/
def cW2 : CGraph :=
  match Canonical.add_edge cW1 ⟨55, 0, 1, "k2", "y"⟩ with
  | .ok p => p.1
  | .error _ => Store.empty

/-- `sW1` with a second parallel edge "A" → "B" carrying key "k2". -/
def sW2 : SGraph :=
  match StrCanonical.add_edge sW1 ⟨55, "A", "B", "k2", "y"⟩ with
  | .ok p => p.1
  | .error _ => StrCanonical.empty

theorem c7_update_edge_duplicate_key_witness :
    Canonical.update_edge cW2 ⟨0, 0, 1, "k2", "z"⟩ = .error .valueError ∧
    Canonical.update_edge cW2 ⟨0, 0, 1, "k3", "z"⟩ = .ok { cW2 with
      edges := cW2.edges.map (fun se => if se.eid = 0 then { se with data := ⟨0, 0, 1, "k3", "z"⟩ } else se) } ∧
    StrCanonical.update_edge sW2 ⟨0, "A", "B", "k2", "z"⟩ = .error .valueError ∧
    StrCanonical.update_edge sW2 ⟨0, "A", "B", "k3", "z"⟩ = .ok ⟨{ sW2.graph with
      edges := sW2.graph.edges.map (fun se => if se.eid = 0 then { se with data := ⟨0, "A", "B", "k3", "z"⟩ } else se) },
      sW2.idmap⟩ :=
  ⟨((c7_update_edge_duplicate_key.1 cW2 ⟨0, 0, 1, "k2", "z"⟩ ⟨0, 0, 1, ⟨0, 0, 1, "k", "x"⟩⟩
      rfl).1 (by refine ⟨by decide, ?_⟩; decide)),
   ((c7_update_edge_duplicate_key.1 cW2 ⟨0, 0, 1, "k3", "z"⟩ ⟨0, 0, 1, ⟨0, 0, 1, "k", "x"⟩⟩
      rfl).2 (by intro hc; exact absurd hc.2 (by decide))),
   ((c7_update_edge_duplicate_key.2 sW2 ⟨0, "A", "B", "k2", "z"⟩ ⟨0, 0, 1, ⟨0, "A", "B", "k", "x"⟩⟩
      rfl).1 (by refine ⟨by decide, ?_⟩; decide)),
   ((c7_update_edge_duplicate_key.2 sW2 ⟨0, "A", "B", "k3", "z"⟩ ⟨0, 0, 1, ⟨0, "A", "B", "k", "x"⟩⟩
      rfl).2 (by intro hc; exact absurd hc.2 (by decide)))⟩

/-- C10: `update_edge` with an unchanged key always succeeds and stores the
payload at index `edge.id` without comparing `edge.source`/`edge.target` to
the storage-recorded endpoints; consequently an integrity-valid graph can be
driven to `check_integrity() = false` by updating an edge with its endpoints
rewritten (here: the stored 0 → 1 edge is overwritten with a payload claiming
1 → 0). -/
theorem c10_update_edge_ignores_endpoints :
    (∀ (g : CGraph) (e : EData) (old : StoredEdge EData),
      g.getEdgeByIndex e.id = some old → old.data.key = e.key →
      Canonical.update_edge g e = .ok { g with
        edges := g.edges.map (fun se => if se.eid = e.id then { se with data := e } else se) }) ∧
    (Canonical.check_integrity cW1 = true ∧
      (∃ g' : CGraph, Canonical.update_edge cW1 ⟨0, 1, 0, "k", "swapped"⟩ = .ok g' ∧
        Canonical.check_integrity g' = false)) := by
  constructor
  · intro g e old hold hkey
    unfold Canonical.update_edge
    rw [hold]
    dsimp only
    rw [if_neg (by intro hc; exact hc.1 hkey)]
    unfold Store.update_edge_by_index
    rw [hold]
  · exact ⟨by decide, ⟨{ cW1 with
      edges := cW1.edges.map (fun se => if se.eid = 0 then { se with data := ⟨0, 1, 0, "k", "swapped"⟩ } else se) }, rfl, by decide⟩⟩

theorem c10_update_edge_ignores_endpoints_witness :
    Canonical.update_edge cW1 ⟨0, 5, 7, "k", "w"⟩ = .ok { cW1 with
      edges := cW1.edges.map (fun se => if se.eid = 0 then { se with data := ⟨0, 5, 7, "k", "w"⟩ } else se) } :=
  c10_update_edge_ignores_endpoints.1 cW1 ⟨0, 5, 7, "k", "w"⟩
    ⟨0, 0, 1, ⟨0, 0, 1, "k", "x"⟩⟩ rfl rfl

/-! ## C6: removal on absent targets -/

/-- C6: behaviour of the removal operations on absent targets, as the code
actually computes it. `RetworkXStrCanonicalMultiDiGraph.remove_node` on an
unmapped string id raises `KeyError` from `self.idmap.pop(nid)` even though
its own docstring promises a no-op, and `remove_edge_between_nodes` on both
canonical layers raises `KeyError` from `get_edge_between_nodes` when no edge
with the key exists (its `if edge is not None` guard is dead code).  The
store-level removals (`remove_node` / `remove_edge` by integer id) are
genuine no-ops on absent ids. -/
theorem c6_removal_raises_on_absent :
    StrCanonical.remove_node StrCanonical.empty "A" = .error .keyError ∧
    StrCanonical.remove_node sW0 "C" = .error .keyError ∧
    Canonical.remove_edge_between_nodes cW0 0 1 "nokey" = .error .keyError ∧
    StrCanonical.remove_edge_between_nodes sW0 "A" "B" "nokey" = .error .keyError ∧
    Store.remove_node cW0 99 = cW0 ∧
    Store.remove_edge cW0 99 = cW0 :=
  ⟨rfl, rfl, rfl, rfl, by decide, by decide⟩

/-! ## C3: copy semantics -/

namespace Canonical

/-- `RetworkXMultiDiGraph.copy` on the integer canonical layer: the only
attribute is `_graph`, which is duplicated by `self._graph.copy()`, so the
result is an equal, fully independent store (value semantics captures the
independence: every later operation builds a new value). -/
def copy (g : CGraph) : CGraph := g

end Canonical

/-- Looking up a key just erased from an id map fails. -/
theorem IdMap.lookup_erase (m : IdMap) (k : String) :
    IdMap.lookup (IdMap.erase m k) k = none := by
  unfold IdMap.lookup IdMap.erase
  induction m with
  | nil => rfl
  | cons p m ih =>
    by_cases h : p.1 = k
    · simp [h]
    · simp [List.filter_cons, h, List.find?]

/-- C3 (amended): `copy()` always yields a structurally equal graph with the
same integrity verdict on both layers, and on the integer layer the copy is
fully independent.  On the string layer, however, `copy()` shares the id map
dictionary with the original (base.py shallow-copies `__dict__`), so running
`remove_node` on the copy leaves the original's node/edge storage untouched
yet flips the original's observable `has_node` to `false`. -/
theorem c3_copy_independence_amended :
    (∀ g : CGraph, Store.structEq (Canonical.copy g) g ∧
      Canonical.check_integrity (Canonical.copy g) = Canonical.check_integrity g) ∧
    (∀ g : SGraph, (SAliased.ofCopy g).copied = g ∧ (SAliased.ofCopy g).orig = g) ∧
    (∀ (g : SGraph) (nid : String) (i : Nat), g.idmap.lookup nid = some i →
      ∃ p, SAliased.removeNodeOnCopy (SAliased.ofCopy g) nid = .ok p ∧
        p.origStore = g.graph ∧
        StrCanonical.has_node (SAliased.orig p) nid = false) := by
  refine ⟨fun g => ⟨⟨List.Perm.refl _, List.Perm.refl _⟩, rfl⟩, fun g => ⟨rfl, rfl⟩, ?_⟩
  intro g nid i hi
  refine ⟨⟨g.graph, Store.remove_node g.graph i, g.idmap.erase nid⟩, ?_, rfl, ?_⟩
  · unfold SAliased.removeNodeOnCopy SAliased.ofCopy
    rw [hi]
  · unfold StrCanonical.has_node SAliased.orig
    simp [IdMap.lookup_erase]

theorem c3_copy_independence_amended_witness :
    Store.structEq (Canonical.copy cW1) cW1 ∧
    (SAliased.ofCopy sW0).copied = sW0 ∧
    (∃ p, SAliased.removeNodeOnCopy (SAliased.ofCopy sW0) "A" = .ok p ∧
      p.origStore = sW0.graph ∧
      StrCanonical.has_node (SAliased.orig p) "A" = false) :=
  ⟨(c3_copy_independence_amended.1 cW1).1,
   (c3_copy_independence_amended.2.1 sW0).1,
   c3_copy_independence_amended.2.2 sW0 "A" 0 rfl⟩

/-- C3 as stated is false on the string layer: `sW0` holds nodes "A" and "B";
after `copy()` the wrappers share the id map, and `remove_node("A")` on the
copy changes the original's observable state — `has_node("A")` flips to
`false` and `check_integrity()` fails although the original's storage still
holds both nodes. -/
theorem c3_copy_shares_idmap_counterexample :
    StrCanonical.has_node sW0 "A" = true ∧
    StrCanonical.check_integrity sW0 = true ∧
    (∃ p : SAliased, SAliased.removeNodeOnCopy (SAliased.ofCopy sW0) "A" = .ok p ∧
      StrCanonical.has_node (SAliased.orig p) "A" = false ∧
      (SAliased.orig p).graph.num_nodes = 2 ∧
      StrCanonical.check_integrity (SAliased.orig p) = false) :=
  ⟨by decide, by decide,
   ⟨⟨sW0.graph, Store.remove_node sW0.graph 0, sW0.idmap.erase "A"⟩, rfl,
    by decide, by decide, by decide⟩⟩

/-! ## C4: deserialization rewrites edge payload ids -/

/-- The payload content of an integer-layer edge, its `id` field excluded. -/
def EContent (d : EData) : Nat × Nat × String × String := (d.source, d.target, d.key, d.label)

/-- The payload content of a string-layer edge, its `id` field excluded. -/
def SEContent (d : SEData) : String × String × String × String :=
  (d.source, d.target, d.key, d.label)

/-- A store reloaded from the persisted representation: node slots are
preserved verbatim, and the edge slots carry the same endpoint/payload data as
before (payloads still holding their pre-serialization `id` fields) but under
arbitrary newly assigned storage indices, in arbitrary order. -/
def Reconstruction (g g' : CGraph) : Prop :=
  g'.nodes = g.nodes ∧
  (g'.edges.map (fun se => (se.src, se.tgt, se.data))).Perm
    (g.edges.map (fun se => (se.src, se.tgt, se.data)))

/-- String-layer reconstruction: additionally the pickled `idmap` is restored
verbatim. -/
def ReconstructionS (g g' : SGraph) : Prop :=
  g'.idmap = g.idmap ∧
  g'.graph.nodes = g.graph.nodes ∧
  (g'.graph.edges.map (fun se => (se.src, se.tgt, se.data))).Perm
    (g.graph.edges.map (fun se => (se.src, se.tgt, se.data)))

/-- C4: on both canonical layers, `__setstate__` applied to any reconstruction
of an integrity-valid graph preserves the node slots (hence node ids and node
count), the edge count, and every edge payload's content, and rewrites each
edge payload's `id` field to the storage-assigned index of its slot, so
`check_integrity` holds after reconstruction even when the new edge ids differ
from the serialized ones. -/
theorem c4_setstate_restores_integrity :
    (∀ g g' : CGraph, Canonical.check_integrity g = true → Reconstruction g g' →
      (Canonical.setstateFix g').nodes = g.nodes ∧
      (Canonical.setstateFix g').num_edges = g.num_edges ∧
      ((Canonical.setstateFix g').edges.map (fun se => EContent se.data)).Perm
        (g.edges.map (fun se => EContent se.data)) ∧
      (∀ se ∈ (Canonical.setstateFix g').edges, se.data.id = se.eid) ∧
      Canonical.check_integrity (Canonical.setstateFix g') = true) ∧
    (∀ g g' : SGraph, StrCanonical.check_integrity g = true → ReconstructionS g g' →
      (StrCanonical.setstateFix g').graph.nodes = g.graph.nodes ∧
      (StrCanonical.setstateFix g').graph.num_edges = g.graph.num_edges ∧
      (((StrCanonical.setstateFix g').graph.edges.map (fun se => SEContent se.data)).Perm
        (g.graph.edges.map (fun se => SEContent se.data))) ∧
      (∀ se ∈ (StrCanonical.setstateFix g').graph.edges, se.data.id = se.eid) ∧
      StrCanonical.check_integrity (StrCanonical.setstateFix g') = true) := by
  constructor
  · intro g g' hint hrec
    obtain ⟨hnodes, hperm⟩ := hrec
    have hlen : g'.edges.length = g.edges.length := by
      have := hperm.length_eq
      simpa using this
    refine ⟨by simpa [Canonical.setstateFix] using hnodes, ?_, ?_, ?_, ?_⟩
    · simpa [Canonical.setstateFix, Store.num_edges] using hlen
    · have h1 : (Canonical.setstateFix g').edges.map (fun se => EContent se.data) =
          g'.edges.map (fun se => EContent se.data) := by
        simp only [Canonical.setstateFix, List.map_map]
        simp
        exact fun a _ => rfl
      have h2 := hperm.map (fun x => EContent x.2.2)
      simp only [List.map_map] at h2
      rw [h1]
      exact h2
    · intro se hse
      simp only [Canonical.setstateFix, List.mem_map] at hse
      obtain ⟨se₀, _, rfl⟩ := hse
      rfl
    · unfold Canonical.check_integrity at hint ⊢
      simp only [Bool.and_eq_true, List.all_eq_true, Bool.and_eq_true, beq_iff_eq] at hint ⊢
      obtain ⟨hintn, hinte⟩ := hint
      constructor
      · intro p hp
        simp only [Canonical.setstateFix] at hp
        exact hintn p (hnodes ▸ hp)
      · intro se hse
        simp only [Canonical.setstateFix, List.mem_map] at hse
        obtain ⟨se₀, hse₀, rfl⟩ := hse
        have hmem : (se₀.src, se₀.tgt, se₀.data) ∈
            g.edges.map (fun se => (se.src, se.tgt, se.data)) :=
          hperm.mem_iff.mp (List.mem_map_of_mem _ hse₀)
        obtain ⟨se₁, hse₁, heq⟩ := List.mem_map.mp hmem
        obtain ⟨h1, h2, h3⟩ : se₁.src = se₀.src ∧ se₁.tgt = se₀.tgt ∧ se₁.data = se₀.data := by
          have := Prod.mk.injEq .. ▸ heq
          exact ⟨congrArg Prod.fst heq, congrArg (Prod.fst ∘ Prod.snd) heq,
            congrArg (Prod.snd ∘ Prod.snd) heq⟩
        have := hinte se₁ hse₁
        refine ⟨⟨rfl, ?_⟩, ?_⟩
        · rw [← h3, ← h1]
          exact this.1.2
        · rw [← h3, ← h2]
          exact this.2
  · intro g g' hint hrec
    obtain ⟨hidmap, hnodes, hperm⟩ := hrec
    have hlen : g'.graph.edges.length = g.graph.edges.length := by
      have := hperm.length_eq
      simpa using this
    refine ⟨by simpa [StrCanonical.setstateFix] using hnodes, ?_, ?_, ?_, ?_⟩
    · simpa [StrCanonical.setstateFix, Store.num_edges] using hlen
    · have h1 : (StrCanonical.setstateFix g').graph.edges.map (fun se => SEContent se.data) =
          g'.graph.edges.map (fun se => SEContent se.data) := by
        simp only [StrCanonical.setstateFix, List.map_map]
        simp
        exact fun a _ => rfl
      have h2 := hperm.map (fun x => SEContent x.2.2)
      simp only [List.map_map] at h2
      rw [h1]
      exact h2
    · intro se hse
      simp only [StrCanonical.setstateFix, List.mem_map] at hse
      obtain ⟨se₀, _, rfl⟩ := hse
      rfl
    · unfold StrCanonical.check_integrity at hint ⊢
      simp only [Bool.and_eq_true, List.all_eq_true, Bool.and_eq_true, beq_iff_eq] at hint ⊢
      obtain ⟨⟨hcount, hintn⟩, hinte⟩ := hint
      refine ⟨⟨?_, ?_⟩, ?_⟩
      · simp only [StrCanonical.setstateFix, Store.num_nodes]
        rw [hnodes, hidmap]
        simpa [Store.num_nodes] using hcount
      · intro p hp
        simp only [StrCanonical.setstateFix] at hp
        simp only [StrCanonical.setstateFix]
        rw [hidmap]
        exact hintn p (hnodes ▸ hp)
      · intro se hse
        simp only [StrCanonical.setstateFix, List.mem_map] at hse
        obtain ⟨se₀, hse₀, rfl⟩ := hse
        have hmem : (se₀.src, se₀.tgt, se₀.data) ∈
            g.graph.edges.map (fun se => (se.src, se.tgt, se.data)) :=
          hperm.mem_iff.mp (List.mem_map_of_mem _ hse₀)
        obtain ⟨se₁, hse₁, heq⟩ := List.mem_map.mp hmem
        obtain ⟨h1, h2, h3⟩ : se₁.src = se₀.src ∧ se₁.tgt = se₀.tgt ∧ se₁.data = se₀.data :=
          ⟨congrArg Prod.fst heq, congrArg (Prod.fst ∘ Prod.snd) heq,
            congrArg (Prod.snd ∘ Prod.snd) heq⟩
        have := hinte se₁ hse₁
        simp only [StrCanonical.setstateFix]
        rw [hidmap]
        refine ⟨⟨trivial, ?_⟩, ?_⟩
        · rw [← h3, ← h1]
          exact this.1.2
        · rw [← h3, ← h2]
          exact this.2

/-- A reconstruction of `cW1` whose single edge slot got the new storage index
5 while the payload still carries the pre-serialization id 0. -/
def cRec : CGraph := { cW1 with edges := [⟨5, 0, 1, ⟨0, 0, 1, "k", "x"⟩⟩] }

/-- A reconstruction of `sW1` with the edge slot reindexed to 5. -/
def sRec : SGraph :=
  ⟨{ sW1.graph with edges := [⟨5, 0, 1, ⟨0, "A", "B", "k", "x"⟩⟩] }, sW1.idmap⟩

theorem c4_setstate_restores_integrity_witness :
    ((Canonical.setstateFix cRec).nodes = cW1.nodes ∧
     (Canonical.setstateFix cRec).num_edges = cW1.num_edges ∧
     ((Canonical.setstateFix cRec).edges.map (fun se => EContent se.data)).Perm
       (cW1.edges.map (fun se => EContent se.data)) ∧
     (∀ se ∈ (Canonical.setstateFix cRec).edges, se.data.id = se.eid) ∧
     Canonical.check_integrity (Canonical.setstateFix cRec) = true) ∧
    ((StrCanonical.setstateFix sRec).graph.nodes = sW1.graph.nodes ∧
     (StrCanonical.setstateFix sRec).graph.num_edges = sW1.graph.num_edges ∧
     (((StrCanonical.setstateFix sRec).graph.edges.map (fun se => SEContent se.data)).Perm
       (sW1.graph.edges.map (fun se => SEContent se.data))) ∧
     (∀ se ∈ (StrCanonical.setstateFix sRec).graph.edges, se.data.id = se.eid) ∧
     StrCanonical.check_integrity (StrCanonical.setstateFix sRec) = true) :=
  ⟨c4_setstate_restores_integrity.1 cW1 cRec (by decide) ⟨rfl, by decide⟩,
   c4_setstate_restores_integrity.2 sW1 sRec (by decide) ⟨rfl, rfl, by decide⟩⟩

/-! ## C5: multi-edge-aware simple-path enumeration (api.py lines 14-59) -/

/-- First-occurrence de-duplication, the effect of the `visited_paths` set in
`digraph_all_simple_paths`. -/
def firstDedup {α : Type} [DecidableEq α] : List α → List α
  | [] => []
  | x :: xs => x :: firstDedup (xs.filter (fun y => y ≠ x))
termination_by l => l.length
decreasing_by
  simp only [List.length_cons]
  exact Nat.lt_succ_of_le (List.length_filter_le _ _)

theorem mem_firstDedup {α : Type} [DecidableEq α] (l : List α) (a : α) :
    a ∈ firstDedup l ↔ a ∈ l := by
  induction l using firstDedup.induct with
  | case1 => simp [firstDedup]
  | case2 x xs ih =>
    unfold firstDedup
    simp only [List.mem_cons, ih, List.mem_filter]
    by_cases h : a = x
    · simp [h]
    · simp [h]

theorem nodup_firstDedup {α : Type} [DecidableEq α] (l : List α) :
    (firstDedup l).Nodup := by
  induction l using firstDedup.induct with
  | case1 => simp [firstDedup]
  | case2 x xs ih =>
    unfold firstDedup
    refine List.nodup_cons.mpr ⟨?_, ih⟩
    intro hmem
    have := (mem_firstDedup _ _).mp hmem
    simp at this

/-- `itertools.product` over a list of alternative lists: one output list per
choice of one element from each input list, leftmost factor varying slowest. -/
def listProd {α : Type} : List (List α) → List (List α)
  | [] => [[]]
  | l :: ls => l.flatMap (fun x => (listProd ls).map (fun r => x :: r))

theorem mem_listProd {α : Type} (ls : List (List α)) (ep : List α) :
    ep ∈ listProd ls ↔ List.Forall₂ (fun x l => x ∈ l) ep ls := by
  induction ls generalizing ep with
  | nil =>
    simp only [listProd, List.mem_singleton]
    constructor
    · rintro rfl
      exact List.Forall₂.nil
    · intro h
      cases h
      rfl
  | cons l ls ih =>
    simp only [listProd, List.mem_flatMap, List.mem_map]
    constructor
    · rintro ⟨x, hx, r, hr, rfl⟩
      exact List.Forall₂.cons hx ((ih r).mp hr)
    · intro h
      cases h with
      | cons hx hr => exact ⟨_, hx, _, (ih _).mpr hr, rfl⟩

theorem length_of_mem_listProd {α : Type} (ls : List (List α)) (ep : List α)
    (h : ep ∈ listProd ls) : ep.length = ls.length :=
  List.Forall₂.length_eq ((mem_listProd ls ep).mp h)

theorem nodup_listProd {α : Type} (ls : List (List α)) (h : ∀ l ∈ ls, l.Nodup) :
    (listProd ls).Nodup := by
  induction ls with
  | nil => simp [listProd]
  | cons l ls ih =>
    simp only [listProd]
    refine List.nodup_flatMap.mpr ⟨?_, ?_⟩
    · intro x hx
      exact (ih (fun m hm => h m (List.mem_cons_of_mem _ hm))).map
        (fun r r' hrr => by simpa using hrr)
    · have hl : l.Nodup := h l (List.mem_cons_self _ _)
      refine List.Pairwise.imp ?_ hl
      intro a b hab ep ha hb
      simp only [List.mem_map] at ha hb
      obtain ⟨r, _, rfl⟩ := ha
      obtain ⟨r', _, heq⟩ := hb
      exact hab (by simpa using (List.cons.injEq .. ▸ heq).1.symm ▸ rfl)

/-- The per-hop parallel-edge lists of a node path: the loop
`for i in range(1, len(nodes)): path.append(g._graph.get_all_edge_data(...))`. -/
def hopEdges (g : CGraph) : List Nat → List (List EData)
  | a :: b :: rest => g.edgesBetween a b :: hopEdges g (b :: rest)
  | _ => []

theorem hopEdges_length (g : CGraph) (p : List Nat) :
    (hopEdges g p).length = p.length - 1 := by
  induction p with
  | nil => simp [hopEdges]
  | cons a p ih =>
    cases p with
    | nil => simp [hopEdges]
    | cons b rest =>
      simp only [hopEdges, List.length_cons] at ih ⊢
      omega

/-- Boolean chain test: consecutive nodes joined by at least one edge. -/
def chainAdjB (g : CGraph) : List Nat → Bool
  | a :: b :: rest => g.dirAdj a b && chainAdjB g (b :: rest)
  | _ => true

/-- Modelled from the spec: the node paths produced by the external
`retworkx.digraph_all_simple_paths` — node-simple directed paths from `s` to
`t`, with at least `minD` and at most `bound` node visits when given (the
wrapper passes `cutoff + 1` as `bound`).  The wrapper may receive each such
path several times; the theorems therefore quantify over any list whose
members are exactly these paths. -/
def SpecPath (g : CGraph) (s t : Nat) (minD bound : Option Nat) (p : List Nat) : Prop :=
  p ≠ [] ∧ p.head? = some s ∧ p.getLast? = some t ∧ p.Nodup ∧
  (∀ q ∈ p, q ∈ g.nodeIds) ∧ chainAdjB g p = true ∧
  minD.getD 0 ≤ p.length ∧ p.length ≤ bound.getD p.length

instance (g : CGraph) (s t : Nat) (minD bound : Option Nat) (p : List Nat) :
    Decidable (SpecPath g s t minD bound p) := by
  unfold SpecPath
  infer_instance

/-- The body of `digraph_all_simple_paths` after the call into retworkx:
de-duplicate the discovered node paths, then emit the Cartesian product of the
per-hop parallel-edge lists for each distinct node path. -/
def expandNodePaths (g : CGraph) (raw : List (List Nat)) : List (List EData) :=
  (firstDedup raw).flatMap (fun p => listProd (hopEdges g p))

/-- `digraph_all_simple_paths` (api.py lines 14-59) for the integer layer:
`cutoff` is incremented before being handed to the node-path search (`core`,
the external retworkx enumeration), whose output is de-duplicated and
expanded. -/
def digraph_all_simple_paths (g : CGraph) (core : Option Nat → List (List Nat))
    (cutoff : Option Nat) : List (List EData) :=
  expandNodePaths g (core (cutoff.map (fun c => c + 1)))

/-- Payloads listed between a pair carry that pair in their endpoint fields
whenever the graph passes `check_integrity`. -/
theorem edgesBetween_endpoints (g : CGraph) (hint : Canonical.check_integrity g = true)
    (a b : Nat) (d : EData) (hd : d ∈ g.edgesBetween a b) :
    d.source = a ∧ d.target = b := by
  unfold Store.edgesBetween at hd
  simp only [List.mem_map, List.mem_filter, decide_eq_true_eq] at hd
  obtain ⟨se, ⟨hse, hsrc, htgt⟩, rfl⟩ := hd
  unfold Canonical.check_integrity at hint
  simp only [Bool.and_eq_true, List.all_eq_true, Bool.and_eq_true, beq_iff_eq] at hint
  obtain ⟨⟨_, h1⟩, h2⟩ := hint.2 se hse
  exact ⟨h1 ▸ hsrc, h2 ▸ htgt⟩

/-- An edge path drawn from the hop lists of a node path `x :: p` determines
`p` as its target sequence, given integrity. -/
theorem listProd_hopEdges_recover (g : CGraph)
    (hint : Canonical.check_integrity g = true) :
    ∀ (p : List Nat) (x : Nat) (ep : List EData),
      ep ∈ listProd (hopEdges g (x :: p)) → p = ep.map EData.target := by
  intro p
  induction p with
  | nil =>
    intro x ep hep
    simp only [hopEdges, listProd, List.mem_singleton] at hep
    subst hep
    rfl
  | cons b rest ih =>
    intro x ep hep
    simp only [hopEdges, listProd, List.mem_flatMap, List.mem_map] at hep
    obtain ⟨e, he, r, hr, rfl⟩ := hep
    have hb := (edgesBetween_endpoints g hint x b e he).2
    have := ih b r hr
    simp [List.map_cons, hb, ← this]

/-- The head of a nonempty edge path drawn from the hop lists of `x :: b :: p`
leaves `x`, given integrity. -/
theorem listProd_hopEdges_head (g : CGraph)
    (hint : Canonical.check_integrity g = true) (x b : Nat) (p : List Nat)
    (e : EData) (ep : List EData)
    (h : e :: ep ∈ listProd (hopEdges g (x :: b :: p))) : e.source = x := by
  simp only [hopEdges, listProd, List.mem_flatMap, List.mem_map] at h
  obtain ⟨e', he', r, hr, heq⟩ := h
  injection heq with h1 h2
  subst h1
  exact (edgesBetween_endpoints g hint x b _ he').1

/-- A node path with head `s` is fully determined by any of its edge-path
realizations, given integrity. -/
theorem nodePath_eq_of_mem_prod (g : CGraph)
    (hint : Canonical.check_integrity g = true) (s : Nat) (p : List Nat)
    (ep : List EData) (hh : p.head? = some s)
    (hmem : ep ∈ listProd (hopEdges g p)) : p = s :: ep.map EData.target := by
  cases p with
  | nil => simp at hh
  | cons x rest =>
    simp only [List.head?_cons, Option.some.injEq] at hh
    subst hh
    have := listProd_hopEdges_recover g hint rest x ep hmem
    rw [← this]

/-- Per-pair edge payload lists inherit duplicate-freedom from the global
payload list. -/
theorem edgesBetween_nodup (g : CGraph)
    (hnd : (g.edges.map StoredEdge.data).Nodup) (a b : Nat) :
    (g.edgesBetween a b).Nodup := by
  unfold Store.edgesBetween
  exact hnd.sublist (List.Sublist.map _ (List.filter_sublist _))

theorem hopEdges_all_nodup (g : CGraph)
    (hnd : (g.edges.map StoredEdge.data).Nodup) :
    ∀ p, ∀ l ∈ hopEdges g p, l.Nodup := by
  intro p
  induction p with
  | nil => simp [hopEdges]
  | cons a rest ih =>
    cases rest with
    | nil => simp [hopEdges]
    | cons b rest' =>
      intro l hl
      simp only [hopEdges, List.mem_cons] at hl
      rcases hl with rfl | hl
      · exact edgesBetween_nodup g hnd a b
      · exact ih l hl

/-- Dropping the bound from a path specification. -/
theorem specPath_drop_bound (g : CGraph) (s t : Nat) (minD : Option Nat) (b : Nat)
    (p : List Nat) (h : SpecPath g s t minD (some b) p) :
    SpecPath g s t minD none p := by
  obtain ⟨h1, h2, h3, h4, h5, h6, h7, h8⟩ := h
  exact ⟨h1, h2, h3, h4, h5, h6, h7, le_refl _⟩

/-- C5: the simple-path wrapper.  Over any node-path search output whose
members are exactly the node-simple `s``t` paths with at most `cutoff + 1`
node visits (the wrapper's internal depth bound; duplicates permitted), the
emitted edge paths are exactly the elements of the Cartesian product, over the
hops of each such node path, of the parallel edges realizing the hop; each is
emitted exactly once (the output is duplicate-free); no emitted path has more
than `cutoff` edges; and the output is a subset of the uncutoff output. -/
theorem c5_all_simple_paths (g : CGraph) (core : Option Nat → List (List Nat))
    (s t : Nat) (minD : Option Nat) (k : Nat)
    (hint : Canonical.check_integrity g = true)
    (hnd : (g.edges.map StoredEdge.data).Nodup)
    (hcore : ∀ p, p ∈ core (some (k + 1)) ↔ SpecPath g s t minD (some (k + 1)) p)
    (hcore' : ∀ p, p ∈ core none ↔ SpecPath g s t minD none p) :
    (∀ ep, ep ∈ digraph_all_simple_paths g core (some k) ↔
      ∃ p, SpecPath g s t minD (some (k + 1)) p ∧ ep ∈ listProd (hopEdges g p)) ∧
    (digraph_all_simple_paths g core (some k)).Nodup ∧
    (∀ ep ∈ digraph_all_simple_paths g core (some k), ep.length ≤ k) ∧
    (∀ ep ∈ digraph_all_simple_paths g core (some k),
      ep ∈ digraph_all_simple_paths g core none) := by
  have hmem : ∀ ep, ep ∈ digraph_all_simple_paths g core (some k) ↔
      ∃ p, SpecPath g s t minD (some (k + 1)) p ∧ ep ∈ listProd (hopEdges g p) := by
    intro ep
    unfold digraph_all_simple_paths expandNodePaths
    simp only [Option.map_some', List.mem_flatMap, mem_firstDedup]
    constructor
    · rintro ⟨p, hp, hep⟩
      exact ⟨p, (hcore p).mp hp, hep⟩
    · rintro ⟨p, hp, hep⟩
      exact ⟨p, (hcore p).mpr hp, hep⟩
  refine ⟨hmem, ?_, ?_, ?_⟩
  · unfold digraph_all_simple_paths expandNodePaths
    simp only [Option.map_some']
    refine List.nodup_flatMap.mpr ⟨?_, ?_⟩
    · intro p hp
      exact nodup_listProd _ (hopEdges_all_nodup g hnd p)
    · refine List.Pairwise.imp_of_mem ?_ (nodup_firstDedup (core (some (k + 1))))
      intro p p' hp hp' hne ep hep hep'
      have hsp := (hcore p).mp ((mem_firstDedup _ _).mp hp)
      have hsp' := (hcore p').mp ((mem_firstDedup _ _).mp hp')
      have e1 := nodePath_eq_of_mem_prod g hint s p ep hsp.2.1 hep
      have e2 := nodePath_eq_of_mem_prod g hint s p' ep hsp'.2.1 hep'
      exact hne (e1.trans e2.symm)
  · intro ep hep
    obtain ⟨p, hsp, hprod⟩ := (hmem ep).mp hep
    have hlen := length_of_mem_listProd _ _ hprod
    rw [hopEdges_length] at hlen
    have hb := hsp.2.2.2.2.2.2.2
    have hne := hsp.1
    have : 1 ≤ p.length := List.length_pos.mpr hne
    simp only [Option.getD_some] at hb
    omega
  · intro ep hep
    obtain ⟨p, hsp, hprod⟩ := (hmem ep).mp hep
    unfold digraph_all_simple_paths expandNodePaths
    simp only [Option.map_none', List.mem_flatMap, mem_firstDedup]
    exact ⟨p, (hcore' p).mpr (specPath_drop_bound g s t minD (k + 1) p hsp), hprod⟩

/-- An executable reference enumeration of the node paths of `SpecPath`, used
to instantiate the search output in concrete runs. -/
def allNodePathsRef (g : CGraph) (s t : Nat) (minD bound : Option Nat) :
    List (List Nat) :=
  (g.nodeIds.sublists.flatMap List.permutations).filter
    (fun p => decide (SpecPath g s t minD bound p))

theorem mem_allNodePathsRef (g : CGraph)
    (s t : Nat) (minD bound : Option Nat) (p : List Nat) :
    p ∈ allNodePathsRef g s t minD bound ↔ SpecPath g s t minD bound p := by
  unfold allNodePathsRef
  simp only [List.mem_filter, decide_eq_true_eq, List.mem_flatMap,
    List.mem_sublists, List.mem_permutations]
  constructor
  · rintro ⟨-, hsp⟩
    exact hsp
  · intro hsp
    refine ⟨?_, hsp⟩
    obtain ⟨l, hperm, hsubl⟩ :=
      List.subperm_of_subset hsp.2.2.2.1 (fun q hq => hsp.2.2.2.2.1 q hq)
    exact ⟨l, hsubl, hperm.symm⟩

/-- Node-building harness: add `k` anonymous canonical nodes. -/
def addNodesC (g : CGraph) (k : Nat) : CGraph :=
  (List.range k).foldl (fun g' _ => (Canonical.add_node g' ⟨0, ""⟩).1) g

/-- Edge-building harness: add one canonical edge per listed pair, empty key. -/
def addEdgesC (g : CGraph) (es : List (Nat × Nat)) : CGraph :=
  es.foldl (fun g' uv =>
    match Canonical.add_edge g' ⟨0, uv.1, uv.2, "", ""⟩ with
    | .ok q => q.1
    | .error _ => g') g

/-- The path-enumeration fixture: nodes 0-3, edges 0→1, 0→2, 0→3, 1→2, 2→3
with ids 0..4 in insertion order. -/
def graph2 : CGraph :=
  addEdgesC (addNodesC Store.empty 4) [(0, 1), (0, 2), (0, 3), (1, 2), (2, 3)]

theorem c5_all_simple_paths_witness :
    (∀ ep, ep ∈ digraph_all_simple_paths graph2
        (fun b => allNodePathsRef graph2 0 3 none b) (some 2) ↔
      ∃ p, SpecPath graph2 0 3 none (some 3) p ∧ ep ∈ listProd (hopEdges graph2 p)) ∧
    (digraph_all_simple_paths graph2
      (fun b => allNodePathsRef graph2 0 3 none b) (some 2)).Nodup ∧
    (∀ ep ∈ digraph_all_simple_paths graph2
        (fun b => allNodePathsRef graph2 0 3 none b) (some 2), ep.length ≤ 2) ∧
    (∀ ep ∈ digraph_all_simple_paths graph2
        (fun b => allNodePathsRef graph2 0 3 none b) (some 2),
      ep ∈ digraph_all_simple_paths graph2
        (fun b => allNodePathsRef graph2 0 3 none b) none) :=
  c5_all_simple_paths graph2 (fun b => allNodePathsRef graph2 0 3 none b) 0 3 none 2
    (by decide) (by decide)
    (fun p => mem_allNodePathsRef graph2 0 3 none (some 3) p)
    (fun p => mem_allNodePathsRef graph2 0 3 none none p)

/-! ## C8: weak connectivity (api.py lines 77-103)

`retworkx.weakly_connected_components` / `is_weakly_connected` are external;
they are modelled from the spec as an executable partition of the live node
set by undirected reachability, failing with `NullGraph` on the empty graph. -/

/-- One closure step: add every candidate node adjacent to the current set. -/
def adjStep (r : Nat → Nat → Bool) (univ : Finset Nat) (s : Finset Nat) : Finset Nat :=
  s ∪ univ.filter (fun b => ∃ a ∈ s, r a b = true)

/-- Iterate the closure step to a guaranteed fixpoint. -/
def reachSet (r : Nat → Nat → Bool) (univ : Finset Nat) (s : Finset Nat) : Finset Nat :=
  (adjStep r univ)^[univ.card + s.card + 1] s

theorem subset_adjStep (r : Nat → Nat → Bool) (univ s : Finset Nat) :
    s ⊆ adjStep r univ s :=
  Finset.subset_union_left

theorem mem_adjStep (r : Nat → Nat → Bool) (univ s : Finset Nat) (b : Nat) :
    b ∈ adjStep r univ s ↔ b ∈ s ∨ (b ∈ univ ∧ ∃ a ∈ s, r a b = true) := by
  simp [adjStep, Finset.mem_union, Finset.mem_filter]

theorem adjStep_subset_union (r : Nat → Nat → Bool) (univ s : Finset Nat) :
    adjStep r univ s ⊆ s ∪ univ := by
  intro b hb
  rcases (mem_adjStep r univ s b).mp hb with h | h
  · exact Finset.mem_union_left _ h
  · exact Finset.mem_union_right _ h.1

theorem iterate_adjStep_subset_union (r : Nat → Nat → Bool) (univ s : Finset Nat) :
    ∀ n, (adjStep r univ)^[n] s ⊆ s ∪ univ := by
  intro n
  induction n with
  | zero => simp
  | succ n ih =>
    rw [Function.iterate_succ_apply']
    intro b hb
    rcases (mem_adjStep r univ _ b).mp hb with h | h
    · exact ih h
    · exact Finset.mem_union_right _ h.1

theorem subset_iterate_adjStep (r : Nat → Nat → Bool) (univ s : Finset Nat) :
    ∀ n, s ⊆ (adjStep r univ)^[n] s := by
  intro n
  induction n with
  | zero => simp
  | succ n ih =>
    rw [Function.iterate_succ_apply']
    exact ih.trans (subset_adjStep r univ _)

theorem adjStep_stab_or_grow (r : Nat → Nat → Bool) (univ s : Finset Nat) :
    ∀ n : Nat,
      adjStep r univ ((adjStep r univ)^[n] s) = (adjStep r univ)^[n] s ∨
      n + s.card ≤ ((adjStep r univ)^[n] s).card := by
  intro n
  induction n with
  | zero => right; simp
  | succ n ih =>
    rcases ih with h | h
    · left
      rw [Function.iterate_succ_apply', h, h]
    · by_cases heq : (adjStep r univ)^[n + 1] s = (adjStep r univ)^[n] s
      · left
        rw [heq]
        rw [Function.iterate_succ_apply'] at heq
        exact heq
      · right
        have hsub : (adjStep r univ)^[n] s ⊆ (adjStep r univ)^[n + 1] s := by
          rw [Function.iterate_succ_apply']
          exact subset_adjStep r univ _
        have hss : (adjStep r univ)^[n] s ⊂ (adjStep r univ)^[n + 1] s :=
          Finset.ssubset_iff_subset_ne.mpr ⟨hsub, fun hcon => heq hcon.symm⟩
        have := Finset.card_lt_card hss
        omega

theorem reachSet_fixpoint (r : Nat → Nat → Bool) (univ s : Finset Nat) :
    adjStep r univ (reachSet r univ s) = reachSet r univ s := by
  unfold reachSet
  rcases adjStep_stab_or_grow r univ s (univ.card + s.card + 1) with h | h
  · exact h
  · exfalso
    have hb := Finset.card_le_card
      (iterate_adjStep_subset_union r univ s (univ.card + s.card + 1))
    have hu := Finset.card_union_le s univ
    omega

theorem subset_reachSet (r : Nat → Nat → Bool) (univ s : Finset Nat) :
    s ⊆ reachSet r univ s :=
  subset_iterate_adjStep r univ s _

/-- Soundness: everything in the closure is reachable through `r` inside
`univ`. -/
theorem reachSet_sound (r : Nat → Nat → Bool) (univ : Finset Nat) (v : Nat) :
    ∀ n, ∀ b ∈ (adjStep r univ)^[n] {v},
      Relation.ReflTransGen (fun x y => r x y = true ∧ y ∈ univ) v b := by
  intro n
  induction n with
  | zero =>
    intro b hb
    simp only [Function.iterate_zero_apply, Finset.mem_singleton] at hb
    subst hb
    exact Relation.ReflTransGen.refl
  | succ n ih =>
    intro b hb
    rw [Function.iterate_succ_apply'] at hb
    rcases (mem_adjStep r univ _ b).mp hb with h | ⟨hbu, a, ha, hr⟩
    · exact ih b h
    · exact Relation.ReflTransGen.tail (ih a ha) ⟨hr, hbu⟩

/-- Completeness: a step-closed set containing `v` contains everything
reachable from `v`. -/
theorem reach_complete (r : Nat → Nat → Bool) (univ S : Finset Nat)
    (hfix : adjStep r univ S = S) (v : Nat) (hv : v ∈ S) (b : Nat)
    (h : Relation.ReflTransGen (fun x y => r x y = true ∧ y ∈ univ) v b) :
    b ∈ S := by
  induction h with
  | refl => exact hv
  | tail hab hstep ih =>
    have hmem : _ ∈ adjStep r univ S :=
      (mem_adjStep r univ S _).mpr (Or.inr ⟨hstep.2, _, ih, hstep.1⟩)
    rwa [hfix] at hmem

theorem mem_reachSet_iff (r : Nat → Nat → Bool) (univ : Finset Nat) (v b : Nat) :
    b ∈ reachSet r univ {v} ↔
      Relation.ReflTransGen (fun x y => r x y = true ∧ y ∈ univ) v b := by
  constructor
  · intro h
    exact reachSet_sound r univ v _ b h
  · intro h
    exact reach_complete r univ _ (reachSet_fixpoint r univ {v}) v
      (subset_reachSet r univ {v} (Finset.mem_singleton_self v)) b h

/-- The live node set as a finite set. -/
def univF (g : CGraph) : Finset Nat := g.nodeIds.toFinset

/-- Undirected connectivity inside the live node set: reflexive-transitive
closure of "joined by an edge in either direction". -/
def UConn (g : CGraph) (u w : Nat) : Prop :=
  Relation.ReflTransGen (fun x y => g.undirAdj x y = true ∧ y ∈ univF g) u w

/-- The weakly connected component of a node, as the undirected closure. -/
def comp (g : CGraph) (v : Nat) : Finset Nat :=
  reachSet (fun a b => g.undirAdj a b) (univF g) {v}

theorem mem_comp_iff (g : CGraph) (v b : Nat) : b ∈ comp g v ↔ UConn g v b :=
  mem_reachSet_iff _ (univF g) v b

theorem undirAdj_comm (g : CGraph) (a b : Nat) : g.undirAdj a b = g.undirAdj b a := by
  unfold Store.undirAdj
  exact Bool.or_comm _ _

theorem uconn_refl (g : CGraph) (v : Nat) : UConn g v v := Relation.ReflTransGen.refl

theorem uconn_trans (g : CGraph) (u v w : Nat) (h1 : UConn g u v) (h2 : UConn g v w) :
    UConn g u w := Relation.ReflTransGen.trans h1 h2

theorem uconn_mem_univ (g : CGraph) (u w : Nat) (h : UConn g u w) :
    w = u ∨ w ∈ univF g := by
  induction h with
  | refl => exact Or.inl rfl
  | tail hab hstep ih => exact Or.inr hstep.2

theorem uconn_symm (g : CGraph) (u w : Nat) (hu : u ∈ univF g) (h : UConn g u w) :
    UConn g w u := by
  induction h with
  | refl => exact Relation.ReflTransGen.refl
  | @tail b c hab hstep ih =>
    have hb : b ∈ univF g := by
      rcases uconn_mem_univ g u b hab with rfl | hmem
      · exact hu
      · exact hmem
    exact Relation.ReflTransGen.head ⟨(undirAdj_comm g b c) ▸ hstep.1, hb⟩ ih

theorem comp_eq_of_uconn (g : CGraph) (u v : Nat) (hv : v ∈ univF g)
    (h : UConn g v u) : comp g v = comp g u := by
  ext b
  rw [mem_comp_iff, mem_comp_iff]
  constructor
  · intro hvb
    exact uconn_trans g u v b (uconn_symm g v u hv h) hvb
  · intro hub
    exact uconn_trans g v u b h hub

/-- The component-collection loop: process node ids in order, skipping ids
already covered, emitting the undirected component of each remaining seed. -/
def wccGo (g : CGraph) : List Nat → Finset Nat → List (Finset Nat)
  | [], _ => []
  | v :: rest, cov =>
    if v ∈ cov then wccGo g rest cov
    else comp g v :: wccGo g rest (cov ∪ comp g v)

/-- Modelled from the spec: `weakly_connected_components` partitions the node
ids into maximal undirected-connected sets and fails with `NullGraph` on a
zero-node graph (api.py lines 86-103 delegate to the external retworkx
routine). -/
def weakly_connected_components (g : CGraph) : Except PyErr (List (Finset Nat)) :=
  if g.num_nodes = 0 then .error .nullGraph else .ok (wccGo g g.nodeIds ∅)

/-- Modelled from the spec: `is_weakly_connected` is the boolean form of the
same query, with the same empty-graph failure (api.py lines 77-83). -/
def is_weakly_connected (g : CGraph) : Except PyErr Bool :=
  if g.num_nodes = 0 then .error .nullGraph
  else .ok ((wccGo g g.nodeIds ∅).length == 1)

theorem wccGo_props (g : CGraph) (l : List Nat) : ∀ cov : Finset Nat,
    (∀ q ∈ l, q ∈ univF g) →
    (∀ x ∈ cov, comp g x ⊆ cov) →
    ((∀ C ∈ wccGo g l cov, ∃ w, w ∈ univF g ∧ C = comp g w) ∧
     (∀ v ∈ l, v ∉ cov → ∃ C ∈ wccGo g l cov, v ∈ C) ∧
     (∀ C ∈ wccGo g l cov, ∀ x ∈ C, x ∉ cov) ∧
     List.Pairwise (fun A B : Finset Nat => ∀ x, x ∈ A → x ∉ B) (wccGo g l cov)) := by
  induction l with
  | nil => intro cov _ _; simp [wccGo]
  | cons v l ih =>
    intro cov hl hsat
    by_cases hv : v ∈ cov
    · have := ih cov (fun q hq => hl q (List.mem_cons_of_mem _ hq)) hsat
      rw [wccGo, if_pos hv]
      refine ⟨this.1, ?_, this.2.2.1, this.2.2.2⟩
      intro u hu hucov
      rcases List.mem_cons.mp hu with rfl | hu'
      · exact absurd hv hucov
      · exact this.2.1 u hu' hucov
    · have hvuniv : v ∈ univF g := hl v (List.mem_cons_self _ _)
      have hsat' : ∀ x ∈ cov ∪ comp g v, comp g x ⊆ cov ∪ comp g v := by
        intro x hx
        rcases Finset.mem_union.mp hx with hx | hx
        · exact (hsat x hx).trans Finset.subset_union_left
        · have hvx : UConn g v x := (mem_comp_iff g v x).mp hx
          have : comp g x = comp g v := (comp_eq_of_uconn g x v hvuniv hvx).symm
          rw [this]
          exact Finset.subset_union_right
      have hcompcov : ∀ x ∈ comp g v, x ∉ cov := by
        intro x hx hxcov
        have hvx : UConn g v x := (mem_comp_iff g v x).mp hx
        have hxv : UConn g x v := uconn_symm g v x hvuniv hvx
        have : v ∈ comp g x := (mem_comp_iff g x v).mpr hxv
        exact hv (hsat x hxcov this)
      have := ih (cov ∪ comp g v) (fun q hq => hl q (List.mem_cons_of_mem _ hq)) hsat'
      obtain ⟨ihA, ihB, ihC, ihD⟩ := this
      rw [wccGo, if_neg hv]
      refine ⟨?_, ?_, ?_, ?_⟩
      · intro C hC
        rcases List.mem_cons.mp hC with rfl | hC'
        · exact ⟨v, hvuniv, rfl⟩
        · exact ihA C hC'
      · intro u hu hucov
        rcases List.mem_cons.mp hu with rfl | hu'
        · exact ⟨comp g u, List.mem_cons_self _ _,
            (mem_comp_iff g u u).mpr (uconn_refl g u)⟩
        · by_cases hcv : u ∈ comp g v
          · exact ⟨comp g v, List.mem_cons_self _ _, hcv⟩
          · have : u ∉ cov ∪ comp g v := by
              intro hmem
              rcases Finset.mem_union.mp hmem with h | h
              · exact hucov h
              · exact hcv h
            obtain ⟨C, hC, huC⟩ := ihB u hu' this
            exact ⟨C, List.mem_cons_of_mem _ hC, huC⟩
      · intro C hC x hx
        rcases List.mem_cons.mp hC with rfl | hC'
        · exact hcompcov x hx
        · intro hxcov
          exact ihC C hC' x hx (Finset.mem_union_left _ hxcov)
      · refine List.pairwise_cons.mpr ⟨?_, ihD⟩
        intro C hC x hxv hxC
        exact ihC C hC x hxC (Finset.mem_union_right _ hxv)

/-- C8: `WeaklyConnectedComponents()` and `IsWeaklyConnected()` fail with
`NullGraphError` on a zero-node graph; on a non-empty graph the component
list covers every live node id exactly once, and each component is a maximal
undirected-connected set: membership in the component of any of its members
is exactly undirected connectivity to that member. -/
theorem c8_weakly_connected_components :
    (∀ g : CGraph, g.num_nodes = 0 →
      weakly_connected_components g = .error .nullGraph ∧
      is_weakly_connected g = .error .nullGraph) ∧
    (∀ (g : CGraph) (comps : List (Finset Nat)),
      weakly_connected_components g = .ok comps →
      (∀ v ∈ g.nodeIds, ∃ C ∈ comps, v ∈ C) ∧
      (∀ C₁ ∈ comps, ∀ C₂ ∈ comps, ∀ v : Nat, v ∈ C₁ → v ∈ C₂ → C₁ = C₂) ∧
      (∀ C ∈ comps, ∀ u ∈ C, ∀ x : Nat, (x ∈ C ↔ UConn g u x))) := by
  constructor
  · intro g h
    unfold weakly_connected_components is_weakly_connected
    rw [if_pos h, if_pos h]
    exact ⟨rfl, rfl⟩
  · intro g comps hok
    unfold weakly_connected_components at hok
    by_cases h0 : g.num_nodes = 0
    · rw [if_pos h0] at hok
      exact absurd hok (by simp)
    · rw [if_neg h0] at hok
      have hcomps : comps = wccGo g g.nodeIds ∅ := by
        simpa using hok.symm
      subst hcomps
      have hprops := wccGo_props g g.nodeIds ∅
        (fun q hq => List.mem_toFinset.mpr hq) (fun x hx => absurd hx (by simp))
      obtain ⟨hA, hB, hC, hD⟩ := hprops
      refine ⟨?_, ?_, ?_⟩
      · intro v hv
        exact hB v hv (by simp)
      · intro C₁ hC₁ C₂ hC₂ v hv₁ hv₂
        by_contra hne
        have hsymm : Symmetric (fun A B : Finset Nat => ∀ x, x ∈ A → x ∉ B) := by
          intro A B hAB x hxB hxA
          exact hAB x hxA hxB
        have := List.Pairwise.forall hsymm hD hC₁ hC₂ hne
        exact this v hv₁ hv₂
      · intro C hCmem u hu x
        obtain ⟨w, hwuniv, rfl⟩ := hA C hCmem
        have hwu : UConn g w u := (mem_comp_iff g w u).mp hu
        constructor
        · intro hx
          exact uconn_trans g u w x (uconn_symm g w u hwuniv hwu)
            ((mem_comp_iff g w x).mp hx)
        · intro hx
          exact (mem_comp_iff g w x).mpr (uconn_trans g w u x hwu hx)

/-- The two-component fixture: nodes 0-5 with edges 0→1, 0→2, 0→3, 1→2, 2→3
and the separate pair 4→5. -/
def graph3 : CGraph :=
  addEdgesC (addNodesC Store.empty 6) [(0, 1), (0, 2), (0, 3), (1, 2), (2, 3), (4, 5)]

theorem c8_weakly_connected_components_witness :
    (weakly_connected_components (Store.empty : Store NData EData) = .error .nullGraph ∧
     is_weakly_connected (Store.empty : Store NData EData) = .error .nullGraph) ∧
    ((∀ v ∈ graph3.nodeIds, ∃ C ∈ wccGo graph3 graph3.nodeIds ∅, v ∈ C) ∧
     (∀ C₁ ∈ wccGo graph3 graph3.nodeIds ∅, ∀ C₂ ∈ wccGo graph3 graph3.nodeIds ∅,
       ∀ v : Nat, v ∈ C₁ → v ∈ C₂ → C₁ = C₂) ∧
     (∀ C ∈ wccGo graph3 graph3.nodeIds ∅, ∀ u ∈ C, ∀ x : Nat,
       (x ∈ C ↔ UConn graph3 u x))) :=
  ⟨c8_weakly_connected_components.1 Store.empty rfl,
   c8_weakly_connected_components.2 graph3 (wccGo graph3 graph3.nodeIds ∅) rfl⟩

/-! ## C9: scoped cycle search (api.py lines 106-124)

`retworkx.digraph_find_cycle` is external; it is modelled from the spec as a
depth-first search from the source that follows out-edges in insertion order
and reports the first cycle it closes, as a list of (source, target) node
pairs; the api.py wrapper then maps each pair to the first edge payload
between the pair.  `retworkx.is_directed_acyclic_graph` (behind `has_cycle`)
is modelled as a reachability test. -/

/-- Consecutive pairs of a node list. -/
def pairsOf : List Nat → List (Nat × Nat)
  | a :: b :: rest => (a, b) :: pairsOf (b :: rest)
  | _ => []

/-- The cycle reported when the scan of `v` finds the successor `w` already on
the current path: the pairs along the path from `w`, closed by `(v, w)`. -/
def cycleFrom (path : List Nat) (w v : Nat) : List (Nat × Nat) :=
  pairsOf (path.dropWhile (fun x => x != w)) ++ [(v, w)]

/-- Scan the remaining out-neighbors `ws` of `v` (the last node of `path`): a
successor on the current path closes a cycle; an already-visited successor is
skipped; a fresh one is handed to `visit` (the one-level-deeper search).  When
the scan completes, `v` is appended to the visited list (postorder
blackening). -/
def dfsScanF (g : CGraph)
    (visit : List Nat → Nat → List Nat → Sum (List (Nat × Nat)) (List Nat))
    (path : List Nat) (v : Nat) :
    List Nat → List Nat → Sum (List (Nat × Nat)) (List Nat)
  | [], vis => .inr (vis ++ [v])
  | w :: ws', vis =>
    if w ∈ path then .inl (cycleFrom path w v)
    else if w ∈ vis then dfsScanF g visit path v ws' vis
    else
      match visit (path ++ [w]) w vis with
      | .inl c => .inl c
      | .inr vis' => dfsScanF g visit path v ws' vis'

/-- Modelled from the spec: visit `v` (the last node of `path`), scanning its
out-neighbors in adjacency order.  Fuel only bounds the recursion depth; the
callers supply enough for it never to run out. -/
def dfsVisit (g : CGraph) : Nat → List Nat → Nat → List Nat →
    Sum (List (Nat × Nat)) (List Nat)
  | 0, _, _, vis => .inr vis
  | fuel + 1, path, v, vis => dfsScanF g (dfsVisit g fuel) path v (g.outTargets v) vis

/-- `retworkx.digraph_find_cycle` as node pairs: DFS from `source`, empty if
the reachable component is acyclic. -/
def find_cycle_pairs (g : CGraph) (source : Nat) : List (Nat × Nat) :=
  match dfsVisit g (g.num_nodes + 1) [source] source [] with
  | .inl c => c
  | .inr _ => []

/-- `digraph_find_cycle` (api.py lines 111-123): map each cycle pair to
`get_edge_data(uid, vid)` — the first stored edge between the pair. -/
def digraph_find_cycle (g : CGraph) (source : Nat) : List EData :=
  (find_cycle_pairs g source).map (fun uv =>
    match g.edgesBetween uv.1 uv.2 with
    | e :: _ => e
    | [] => default)

/-- Modelled from the spec: `has_cycle` is true iff some edge closes a
directed cycle, i.e. its source is reachable from its target. -/
def has_cycle (g : CGraph) : Bool :=
  g.edges.any (fun se =>
    se.src ∈ reachSet (fun a b => g.dirAdj a b) (univF g) {se.tgt})

/-- Plain directed reachability along edges. -/
def DReach (g : CGraph) (a b : Nat) : Prop :=
  Relation.ReflTransGen (fun x y => g.dirAdj x y = true) a b

/-- A directed cycle through `u`: a closed nonempty edge walk `u → … → u`. -/
def DirCycle (g : CGraph) (u : Nat) (l : List Nat) : Prop :=
  List.Chain (fun a b => g.dirAdj a b = true) u (l ++ [u])

/-- The cycle fixture: edges 0→1, 1→2, 2→3, 3→1 plus the disjoint cycle
4→5, 5→4 and edge 4→6 (edge ids 0..6 in this insertion order). -/
def graph4 : CGraph :=
  addEdgesC (addNodesC Store.empty 7)
    [(0, 1), (1, 2), (2, 3), (3, 1), (4, 5), (4, 6), (5, 4)]

/-- What the search reports when it closes a cycle: a nonempty, consecutive,
closed sequence of edge-backed node pairs whose heads are all reachable from
the search source. -/
structure GoodCycle (g : CGraph) (source : Nat) (c : List (Nat × Nat)) : Prop where
  nonempty : c ≠ []
  edgesBack : ∀ p ∈ c, g.dirAdj p.1 p.2 = true
  chain : List.Chain' (fun p q : Nat × Nat => p.2 = q.1) c
  closes : c.getLast?.map Prod.snd = c.head?.map Prod.fst
  reach : ∀ p ∈ c, DReach g source p.1

theorem pairsOf_mem_adj (g : CGraph) :
    ∀ l : List Nat, List.Chain' (fun a b => g.dirAdj a b = true) l →
      ∀ p ∈ pairsOf l, g.dirAdj p.1 p.2 = true := by
  intro l
  induction l with
  | nil => intro _ p hp; simp [pairsOf] at hp
  | cons a l ih =>
    cases l with
    | nil => intro _ p hp; simp [pairsOf] at hp
    | cons b r =>
      intro hchain p hp
      rw [List.chain'_cons] at hchain
      simp only [pairsOf, List.mem_cons] at hp
      rcases hp with rfl | hp
      · exact hchain.1
      · exact ih hchain.2 p hp

theorem pairsOf_mem_fst : ∀ (l : List Nat), ∀ p ∈ pairsOf l, p.1 ∈ l := by
  intro l
  induction l with
  | nil => intro p hp; simp [pairsOf] at hp
  | cons a l ih =>
    cases l with
    | nil => intro p hp; simp [pairsOf] at hp
    | cons b r =>
      intro p hp
      simp only [pairsOf, List.mem_cons] at hp
      rcases hp with rfl | hp
      · simp
      · exact List.mem_cons_of_mem _ (ih p hp)

theorem pairsOf_chain_append (v w : Nat) :
    ∀ l : List Nat, l.getLast? = some v →
      List.Chain' (fun p q : Nat × Nat => p.2 = q.1) (pairsOf l ++ [(v, w)]) := by
  intro l
  induction l with
  | nil => intro h; simp at h
  | cons a l ih =>
    cases l with
    | nil =>
      intro h
      simp only [List.getLast?_singleton, Option.some.injEq] at h
      simp [pairsOf]
    | cons b r =>
      intro h
      have hlast : (b :: r).getLast? = some v := by
        rw [← h]
        exact (List.getLast?_cons_cons ..).symm ▸ rfl
      have ihr := ih hlast
      simp only [pairsOf, List.cons_append]
      refine List.chain'_cons'.mpr ⟨?_, ihr⟩
      intro q hq
      cases r with
      | nil =>
        simp only [pairsOf, List.nil_append, List.head?_cons, Option.mem_def,
          Option.some.injEq] at hq
        subst hq
        simp only [List.getLast?_singleton, Option.some.injEq] at hlast
        simpa using hlast
      | cons c r' =>
        simp only [pairsOf, List.cons_append, List.head?_cons, Option.mem_def,
          Option.some.injEq] at hq
        subst hq
        rfl

theorem pairsOf_head_fst (w : Nat) :
    ∀ l : List Nat, l.head? = some w →
      pairsOf l = [] ∨ (pairsOf l).head?.map Prod.fst = some w := by
  intro l h
  cases l with
  | nil => simp at h
  | cons a l =>
    cases l with
    | nil => left; rfl
    | cons b r =>
      right
      simp only [List.head?_cons, Option.some.injEq] at h
      subst h
      rfl

theorem pairsOf_eq_nil (l : List Nat) (h : pairsOf l = []) :
    l = [] ∨ ∃ x, l = [x] := by
  cases l with
  | nil => exact Or.inl rfl
  | cons a l =>
    cases l with
    | nil => exact Or.inr ⟨a, rfl⟩
    | cons b r => simp [pairsOf] at h

theorem head?_dropWhile_ne (w : Nat) :
    ∀ l : List Nat, w ∈ l → (l.dropWhile (fun x => x != w)).head? = some w := by
  intro l
  induction l with
  | nil => intro h; simp at h
  | cons a l ih =>
    intro h
    by_cases ha : a = w
    · subst ha
      simp [List.dropWhile]
    · have hw : w ∈ l := by
        rcases List.mem_cons.mp h with rfl | h'
        · exact absurd rfl ha
        · exact h'
      have hpred : (a != w) = true := by simpa using ha
      simp [List.dropWhile, hpred]
      exact ih hw

/-- Closing a cycle from the current search path yields a genuine cycle. -/
theorem cycleFrom_good (g : CGraph) (source : Nat) (path : List Nat) (w v : Nat)
    (hchain : List.Chain' (fun a b => g.dirAdj a b = true) path)
    (hlast : path.getLast? = some v)
    (hreach : ∀ x ∈ path, DReach g source x)
    (hw : w ∈ path) (hvw : g.dirAdj v w = true) :
    GoodCycle g source (cycleFrom path w v) := by
  set t := path.dropWhile (fun x => x != w) with ht
  have hsuffix : List.IsSuffix t path := List.dropWhile_suffix _
  have hhead : t.head? = some w := head?_dropWhile_ne w path hw
  have htne : t ≠ [] := by
    intro hcon
    rw [hcon] at hhead
    simp at hhead
  have htlast : t.getLast? = some v := by
    obtain ⟨pre, hpre⟩ := hsuffix
    rw [← hlast, ← hpre]
    exact (List.getLast?_append_of_ne_nil pre htne).symm
  have htchain : List.Chain' (fun a b => g.dirAdj a b = true) t := by
    obtain ⟨pre, hpre⟩ := hsuffix
    rw [← hpre] at hchain
    exact List.Chain'.right_of_append hchain
  have htsub : t ⊆ path := hsuffix.subset
  have hvpath : v ∈ path := by
    obtain ⟨l', hl'⟩ := List.getLast?_eq_some_iff.mp hlast
    rw [hl']
    exact List.mem_concat_self l' v
  refine ⟨?_, ?_, ?_, ?_, ?_⟩
  · simp [cycleFrom]
  · intro p hp
    unfold cycleFrom at hp
    rw [List.mem_append] at hp
    rcases hp with hp | hp
    · exact pairsOf_mem_adj g t htchain p hp
    · simp only [List.mem_singleton] at hp
      subst hp
      exact hvw
  · exact pairsOf_chain_append v w t htlast
  · unfold cycleFrom
    rw [List.getLast?_concat]
    rcases pairsOf_head_fst w t hhead with hnil | hfst
    · rw [hnil]
      rcases pairsOf_eq_nil t hnil with hnil2 | ⟨x, hx⟩
      · exact absurd hnil2 htne
      · rw [hx] at hhead htlast
        simp only [List.head?_singleton, Option.some.injEq] at hhead
        simp only [List.getLast?_singleton, Option.some.injEq] at htlast
        simp [← hhead, ← htlast]
    · rcases hpof : pairsOf t with _ | ⟨q, qs⟩
      · rw [hpof] at hfst
        simp at hfst
      · rw [hpof] at hfst
        simpa using hfst.symm
  · intro p hp
    unfold cycleFrom at hp
    rw [List.mem_append] at hp
    rcases hp with hp | hp
    · exact hreach p.1 (htsub (pairsOf_mem_fst t p hp))
    · simp only [List.mem_singleton] at hp
      subst hp
      exact hreach v hvpath

theorem outTargets_adj (g : CGraph) (v w : Nat) (h : w ∈ g.outTargets v) :
    g.dirAdj v w = true := by
  unfold Store.outTargets at h
  unfold Store.dirAdj
  simp only [List.mem_map, List.mem_filter, decide_eq_true_eq] at h
  obtain ⟨se, ⟨hse, hsrc⟩, rfl⟩ := h
  simp only [List.any_eq_true, Bool.and_eq_true, beq_iff_eq]
  exact ⟨se, hse, hsrc, rfl⟩

theorem dirAdj_iff_edgesBetween_ne (g : CGraph) (a b : Nat) :
    g.dirAdj a b = true ↔ g.edgesBetween a b ≠ [] := by
  unfold Store.dirAdj Store.edgesBetween
  simp only [List.any_eq_true, Bool.and_eq_true, beq_iff_eq, ne_eq,
    List.map_eq_nil_iff, List.filter_eq_nil_iff, decide_eq_true_eq]
  constructor
  · rintro ⟨se, hse, h1, h2⟩ hall
    exact hall se hse ⟨h1, h2⟩
  · intro h
    by_contra hno
    push_neg at hno
    exact h (fun se hse hcon => hno se hse hcon.1 hcon.2)

/-- Soundness of the neighbor scan: any cycle it reports is genuine, provided
every cycle the supplied visit function reports is. -/
theorem dfs_scan_sound (g : CGraph) (source : Nat)
    (visit : List Nat → Nat → List Nat → Sum (List (Nat × Nat)) (List Nat))
    (hvisit : ∀ (path : List Nat) (v : Nat) (vis : List Nat) (c : List (Nat × Nat)),
      List.Chain' (fun a b => g.dirAdj a b = true) path →
      path.head? = some source → path.getLast? = some v →
      (∀ x ∈ path, DReach g source x) →
      visit path v vis = .inl c → GoodCycle g source c) :
    ∀ (path : List Nat) (v : Nat) (ws vis : List Nat) (c : List (Nat × Nat)),
      List.Chain' (fun a b => g.dirAdj a b = true) path →
      path.head? = some source → path.getLast? = some v →
      (∀ x ∈ path, DReach g source x) →
      (∀ w ∈ ws, g.dirAdj v w = true) →
      dfsScanF g visit path v ws vis = .inl c → GoodCycle g source c := by
  intro path v ws
  induction ws with
  | nil =>
    intro vis c _ _ _ _ _ hres
    simp [dfsScanF] at hres
  | cons w ws' ihw =>
    intro vis c h1 h2 h3 h4 hws hres
    rw [dfsScanF] at hres
    by_cases hwp : w ∈ path
    · rw [if_pos hwp] at hres
      simp only [Sum.inl.injEq] at hres
      subst hres
      exact cycleFrom_good g source path w v h1 h3 h4 hwp
        (hws w (List.mem_cons_self _ _))
    · rw [if_neg hwp] at hres
      by_cases hwv : w ∈ vis
      · rw [if_pos hwv] at hres
        exact ihw vis c h1 h2 h3 h4
          (fun x hx => hws x (List.mem_cons_of_mem _ hx)) hres
      · rw [if_neg hwv] at hres
        have hvmem : v ∈ path := by
          obtain ⟨l', hl'⟩ := List.getLast?_eq_some_iff.mp h3
          rw [hl']
          exact List.mem_concat_self l' v
        have hpne : path ≠ [] := by
          intro hcon
          rw [hcon] at h3
          simp at h3
        rcases hv : visit (path ++ [w]) w vis with c' | vis'
        · rw [hv] at hres
          simp only [Sum.inl.injEq] at hres
          subst hres
          refine hvisit (path ++ [w]) w vis c' ?_ ?_ ?_ ?_ hv
          · refine List.Chain'.append h1 (List.chain'_singleton w) ?_
            intro x hx y hy
            simp only [h3, Option.mem_def, Option.some.injEq] at hx
            simp only [List.head?_singleton, Option.mem_def, Option.some.injEq] at hy
            subst hx
            subst hy
            exact hws w (List.mem_cons_self _ _)
          · rw [List.head?_append_of_ne_nil _ hpne]
            exact h2
          · exact List.getLast?_concat _
          · intro x hx
            rcases List.mem_append.mp hx with hx | hx
            · exact h4 x hx
            · simp only [List.mem_singleton] at hx
              subst hx
              exact Relation.ReflTransGen.tail (h4 v hvmem)
                (hws _ (List.mem_cons_self _ _))
        · rw [hv] at hres
          exact ihw vis' c h1 h2 h3 h4
            (fun x hx => hws x (List.mem_cons_of_mem _ hx)) hres

/-- Soundness of the visit: any cycle it reports is genuine. -/
theorem dfs_visit_sound (g : CGraph) (source : Nat) : ∀ (fuel : Nat)
    (path : List Nat) (v : Nat) (vis : List Nat) (c : List (Nat × Nat)),
    List.Chain' (fun a b => g.dirAdj a b = true) path →
    path.head? = some source → path.getLast? = some v →
    (∀ x ∈ path, DReach g source x) →
    dfsVisit g fuel path v vis = .inl c → GoodCycle g source c := by
  intro fuel
  induction fuel with
  | zero =>
    intro path v vis c _ _ _ _ hres
    simp [dfsVisit] at hres
  | succ fuel ih =>
    intro path v vis c h1 h2 h3 h4 hres
    rw [dfsVisit] at hres
    exact dfs_scan_sound g source (dfsVisit g fuel) ih path v (g.outTargets v) vis c
      h1 h2 h3 h4 (fun w hw => outTargets_adj g v w hw) hres

/-- Rank of a node in the blacken order: length of the prefix before its
first occurrence. -/
def rankIn (l : List Nat) (u : Nat) : Nat := (l.takeWhile (fun x => x != u)).length

theorem rank_lt_of_mem_takeWhile :
    ∀ (l : List Nat) (w u : Nat), w ∈ l.takeWhile (fun x => x != u) →
      rankIn l w < rankIn l u := by
  intro l
  induction l with
  | nil => intro w u hw; simp [List.takeWhile] at hw
  | cons a l ih =>
    intro w u hw
    by_cases hau : a = u
    · subst hau
      simp [List.takeWhile] at hw
    · have hpred : (a != u) = true := by simpa using hau
      rw [List.takeWhile_cons, if_pos hpred] at hw
      unfold rankIn
      simp only [List.takeWhile_cons]
      rw [if_pos hpred]
      by_cases haw : a = w
      · subst haw
        have hf : (a != a) = false := by simp
        simp [hf]
      · have hpw : (a != w) = true := by simpa using haw
        rw [if_pos hpw]
        simp only [List.length_cons]
        rcases List.mem_cons.mp hw with rfl | hw'
        · exact absurd rfl haw
        · exact Nat.succ_lt_succ (ih w u hw')

theorem mem_of_mem_takeWhile {l : List Nat} {p : Nat → Bool} {w : Nat}
    (h : w ∈ l.takeWhile p) : w ∈ l :=
  (List.takeWhile_sublist p).subset h

/-- The blacken-order invariant: every out-neighbor of a blackened node was
blackened strictly earlier. -/
def ORD (g : CGraph) (vis : List Nat) : Prop :=
  ∀ u ∈ vis, ∀ w : Nat, g.dirAdj u w = true → w ∈ vis.takeWhile (fun x => x != u)

theorem ord_closed (g : CGraph) (vis : List Nat) (hord : ORD g vis)
    (u : Nat) (hu : u ∈ vis) (w : Nat) (hadj : g.dirAdj u w = true) : w ∈ vis :=
  mem_of_mem_takeWhile (hord u hu w hadj)

theorem ord_closed_reach (g : CGraph) (vis : List Nat) (hord : ORD g vis)
    (s : Nat) (hs : s ∈ vis) : ∀ b, DReach g s b → b ∈ vis := by
  intro b h
  induction h with
  | refl => exact hs
  | tail hab hstep ih => exact ord_closed g vis hord _ ih _ hstep

theorem ord_rank_chain (g : CGraph) (vis : List Nat) (hord : ORD g vis) :
    ∀ (l : List Nat) (a b : Nat), a ∈ vis →
      List.Chain (fun x y => g.dirAdj x y = true) a l → l.getLast? = some b →
      rankIn vis b < rankIn vis a ∧ b ∈ vis := by
  intro l
  induction l with
  | nil => intro a b _ _ hlast; simp at hlast
  | cons x l' ih =>
    intro a b ha hchain hlast
    rw [List.chain_cons] at hchain
    have hx_tw := hord a ha x hchain.1
    have hx_rank := rank_lt_of_mem_takeWhile vis x a hx_tw
    have hx_mem : x ∈ vis := mem_of_mem_takeWhile hx_tw
    cases l' with
    | nil =>
      simp only [List.getLast?_singleton, Option.some.injEq] at hlast
      subst hlast
      exact ⟨hx_rank, hx_mem⟩
    | cons y l'' =>
      have hlast' : (y :: l'').getLast? = some b := by
        rw [← hlast]
        exact (List.getLast?_cons_cons ..).symm ▸ rfl
      have := ih x b hx_mem hchain.2 hlast'
      exact ⟨lt_trans this.1 hx_rank, this.2⟩

theorem ord_no_dircycle (g : CGraph) (vis : List Nat) (hord : ORD g vis)
    (u : Nat) (hu : u ∈ vis) (l : List Nat) : ¬DirCycle g u l := by
  intro hcyc
  have hlast : (l ++ [u]).getLast? = some u := List.getLast?_concat _
  have := ord_rank_chain g vis hord (l ++ [u]) u u hu hcyc hlast
  exact lt_irrefl _ this.1

/-- A node list stays a strict prefix under extension at a member. -/
theorem takeWhile_append_of_mem (u : Nat) :
    ∀ (l ext : List Nat), u ∈ l →
      (l ++ ext).takeWhile (fun x => x != u) = l.takeWhile (fun x => x != u) := by
  intro l ext hu
  induction l with
  | nil => simp at hu
  | cons a l ih =>
    by_cases hau : a = u
    · subst hau
      have : (a != a) = false := by simp
      simp [List.takeWhile_cons, this]
    · have hpred : (a != u) = true := by simpa using hau
      have hu' : u ∈ l := by
        rcases List.mem_cons.mp hu with rfl | h
        · exact absurd rfl hau
        · exact h
      simp only [List.cons_append, List.takeWhile_cons, if_pos hpred]
      rw [ih hu']

theorem takeWhile_append_self (v : Nat) :
    ∀ l : List Nat, v ∉ l → (l ++ [v]).takeWhile (fun x => x != v) = l := by
  intro l hv
  induction l with
  | nil =>
    have : (v != v) = false := by simp
    simp [List.takeWhile_cons, this]
  | cons a l ih =>
    have hav : a ≠ v := fun hcon => hv (hcon ▸ List.mem_cons_self _ _)
    have hpred : (a != v) = true := by simpa using hav
    simp only [List.cons_append, List.takeWhile_cons, if_pos hpred]
    rw [ih (fun hcon => hv (List.mem_cons_of_mem _ hcon))]

theorem adj_tgt_univ (g : CGraph) (HEt : ∀ se ∈ g.edges, se.tgt ∈ univF g)
    (v w : Nat) (h : g.dirAdj v w = true) : w ∈ univF g := by
  unfold Store.dirAdj at h
  simp only [List.any_eq_true, Bool.and_eq_true, beq_iff_eq] at h
  obtain ⟨se, hse, _, rfl⟩ := h
  exact HEt se hse

theorem mem_outTargets_of_adj (g : CGraph) (v w : Nat)
    (h : g.dirAdj v w = true) : w ∈ g.outTargets v := by
  unfold Store.dirAdj at h
  unfold Store.outTargets
  simp only [List.any_eq_true, Bool.and_eq_true, beq_iff_eq] at h
  obtain ⟨se, hse, h1, rfl⟩ := h
  simp only [List.mem_map, List.mem_filter, decide_eq_true_eq]
  exact ⟨se, ⟨hse, h1⟩, rfl⟩

theorem path_card_bound (path : List Nat) (source : Nat) (univ : Finset Nat)
    (hnd : path.Nodup) (huniv : ∀ x ∈ path, x ∈ univ ∨ x = source) :
    path.length ≤ univ.card + 1 := by
  have hsub : path.toFinset ⊆ insert source univ := by
    intro x hx
    rcases huniv x (List.mem_toFinset.mp hx) with h | rfl
    · exact Finset.mem_insert_of_mem h
    · exact Finset.mem_insert_self _ _
  have h1 : path.toFinset.card = path.length := List.toFinset_card_of_nodup hnd
  have h2 := Finset.card_le_card hsub
  have h3 := Finset.card_insert_le source univ
  omega

/-- Postcondition of a completed (cycle-free) visit/scan: the visited list
grows by appending, now contains `v`, gained only `v` and off-path nodes,
stays duplicate-free, and maintains the blacken-order invariant. -/
def DfsPost (g : CGraph) (path : List Nat) (v : Nat) (vis r : List Nat) : Prop :=
  (∃ ext, r = vis ++ ext) ∧ v ∈ r ∧ (∀ x ∈ r, x ∈ vis ∨ x = v ∨ x ∉ path) ∧
  r.Nodup ∧ ORD g r

/-- Completeness invariant of the neighbor scan, assuming it for same-fuel
visits. -/
theorem dfs_scan_complete (g : CGraph) (source : Nat) (fuel : Nat)
    (visit : List Nat → Nat → List Nat → Sum (List (Nat × Nat)) (List Nat))
    (HEt : ∀ se ∈ g.edges, se.tgt ∈ univF g)
    (hvisit : ∀ (path : List Nat) (v : Nat) (vis r : List Nat),
      (univF g).card + 2 ≤ fuel + path.length →
      path.Nodup → path.head? = some source → path.getLast? = some v →
      (∀ x ∈ path, x ∈ univF g ∨ x = source) →
      (∀ x ∈ path, x ∉ vis) → vis.Nodup → ORD g vis →
      visit path v vis = .inr r → DfsPost g path v vis r) :
    ∀ (path : List Nat) (v : Nat) (ws : List Nat), ∀ (vis r : List Nat),
      (univF g).card + 2 ≤ fuel + 1 + path.length →
      path.Nodup → path.head? = some source → path.getLast? = some v →
      (∀ x ∈ path, x ∈ univF g ∨ x = source) →
      (∀ x ∈ path, x ∉ vis) → vis.Nodup → ORD g vis →
      (∀ w ∈ ws, g.dirAdj v w = true) →
      (∀ w : Nat, g.dirAdj v w = true → w ∈ ws ∨ w ∈ vis) →
      dfsScanF g visit path v ws vis = .inr r → DfsPost g path v vis r := by
  intro path v ws
  have hvmem : ∀ vv : Nat, path.getLast? = some vv → vv ∈ path := by
    intro vv h
    obtain ⟨l', hl'⟩ := List.getLast?_eq_some_iff.mp h
    rw [hl']
    exact List.mem_concat_self l' vv
  induction ws with
  | nil =>
    intro vis r hsum hnd h2 h3 huniv hdisj hvnd hord hws hcov hres
    rw [dfsScanF] at hres
    simp only [Sum.inr.injEq] at hres
    subst hres
    have hvp := hvmem v h3
    have hvnotvis : v ∉ vis := hdisj v hvp
    refine ⟨⟨[v], rfl⟩, List.mem_append_right _ (List.mem_singleton_self v), ?_, ?_, ?_⟩
    · intro x hx
      rcases List.mem_append.mp hx with hx | hx
      · exact Or.inl hx
      · exact Or.inr (Or.inl (List.mem_singleton.mp hx))
    · simp only [List.nodup_append, List.nodup_singleton, true_and]
      exact ⟨hvnd, by simpa [List.disjoint_singleton] using hvnotvis⟩
    · intro u hu w hadj
      rcases List.mem_append.mp hu with hu | hu
      · rw [takeWhile_append_of_mem u vis [v] hu]
        exact hord u hu w hadj
      · have huv : u = v := List.mem_singleton.mp hu
        subst huv
        rw [takeWhile_append_self u vis hvnotvis]
        rcases hcov w hadj with h | h
        · simp at h
        · exact h
  | cons w ws' ihw =>
    intro vis r hsum hnd h2 h3 huniv hdisj hvnd hord hws hcov hres
    rw [dfsScanF] at hres
    by_cases hwp : w ∈ path
    · rw [if_pos hwp] at hres
      simp at hres
    · rw [if_neg hwp] at hres
      by_cases hwv : w ∈ vis
      · rw [if_pos hwv] at hres
        refine ihw vis r hsum hnd h2 h3 huniv hdisj hvnd hord
          (fun x hx => hws x (List.mem_cons_of_mem _ hx)) ?_ hres
        intro x hx
        rcases hcov x hx with h | h
        · rcases List.mem_cons.mp h with rfl | h'
          · exact Or.inr hwv
          · exact Or.inl h'
        · exact Or.inr h
      · rw [if_neg hwv] at hres
        have hpne : path ≠ [] := by
          intro hcon
          rw [hcon] at h3
          simp at h3
        have hadjw : g.dirAdj v w = true := hws w (List.mem_cons_self _ _)
        rcases hv : visit (path ++ [w]) w vis with c' | vis₁
        · rw [hv] at hres
          simp at hres
        · rw [hv] at hres
          have hpost := hvisit (path ++ [w]) w vis vis₁ ?_ ?_ ?_ ?_ ?_ ?_ hvnd hord hv
          · obtain ⟨⟨ext₁, hext₁⟩, hwin, hpost3, hnd₁, hord₁⟩ := hpost
            have hdisj₁ : ∀ x ∈ path, x ∉ vis₁ := by
              intro x hx hxv
              rcases hpost3 x hxv with h | h | h
              · exact hdisj x hx h
              · subst h
                exact hwp hx
              · exact h (List.mem_append_left _ hx)
            have hpost' := ihw vis₁ r hsum hnd h2 h3 huniv hdisj₁ hnd₁ hord₁
              (fun x hx => hws x (List.mem_cons_of_mem _ hx)) ?_ hres
            · obtain ⟨⟨ext₂, hext₂⟩, hvr, hpost3', hndr, hordr⟩ := hpost'
              refine ⟨⟨ext₁ ++ ext₂, by rw [hext₂, hext₁, List.append_assoc]⟩,
                hvr, ?_, hndr, hordr⟩
              intro x hx
              rcases hpost3' x hx with h | h | h
              · rcases hpost3 x h with h' | h' | h'
                · exact Or.inl h'
                · subst h'
                  exact Or.inr (Or.inr hwp)
                · exact Or.inr (Or.inr (fun hc => h' (List.mem_append_left _ hc)))
              · exact Or.inr (Or.inl h)
              · exact Or.inr (Or.inr h)
            · intro x hx
              rcases hcov x hx with h | h
              · rcases List.mem_cons.mp h with rfl | h'
                · exact Or.inr hwin
                · exact Or.inl h'
              · exact Or.inr (hext₁ ▸ List.mem_append_left _ h)
          · simp only [List.length_append, List.length_singleton]
            omega
          · simp only [List.nodup_append, List.nodup_singleton, true_and]
            exact ⟨hnd, by simpa [List.disjoint_singleton] using hwp⟩
          · rw [List.head?_append_of_ne_nil _ hpne]
            exact h2
          · exact List.getLast?_concat _
          · intro x hx
            rcases List.mem_append.mp hx with hx | hx
            · exact huniv x hx
            · have : x = w := List.mem_singleton.mp hx
              subst this
              exact Or.inl (adj_tgt_univ g HEt v x hadjw)
          · intro x hx
            rcases List.mem_append.mp hx with hx | hx
            · exact hdisj x hx
            · have : x = w := List.mem_singleton.mp hx
              subst this
              exact hwv

/-- Completeness invariant of the visit. -/
theorem dfs_visit_complete (g : CGraph) (source : Nat)
    (HEt : ∀ se ∈ g.edges, se.tgt ∈ univF g) :
    ∀ (fuel : Nat) (path : List Nat) (v : Nat) (vis r : List Nat),
      (univF g).card + 2 ≤ fuel + path.length →
      path.Nodup → path.head? = some source → path.getLast? = some v →
      (∀ x ∈ path, x ∈ univF g ∨ x = source) →
      (∀ x ∈ path, x ∉ vis) → vis.Nodup → ORD g vis →
      dfsVisit g fuel path v vis = .inr r → DfsPost g path v vis r := by
  intro fuel
  induction fuel with
  | zero =>
    intro path v vis r hsum hnd _ _ huniv _ _ _ _
    exfalso
    have := path_card_bound path source (univF g) hnd huniv
    omega
  | succ fuel ih =>
    intro path v vis r hsum hnd h2 h3 huniv hdisj hvnd hord hres
    rw [dfsVisit] at hres
    refine dfs_scan_complete g source fuel (dfsVisit g fuel) HEt ih path v
      (g.outTargets v) vis r (by omega) hnd h2 h3 huniv hdisj hvnd hord
      (fun w hw => outTargets_adj g v w hw)
      (fun w hw => Or.inl (mem_outTargets_of_adj g v w hw)) hres

/-- C9: `FindCycle(source)` searches only the component reachable from
`source`.  Concretely on the fixture with cycle 1→2→3→1 and disjoint cycle
4↔5 plus edge 4→6: `HasCycle()` is true, `FindCycle(6)` is empty, and
`FindCycle(0)` is the edge sequence 1→2, 2→3, 3→1.  Generally: any nonempty
result is a genuine closed edge-backed cycle whose nodes are reachable from
`source`, with every reported pair realized by a stored edge; and an empty
result means no directed cycle touches any node reachable from `source`,
even when cycles exist elsewhere. -/
theorem c9_find_cycle_scoped :
    (has_cycle graph4 = true ∧
     digraph_find_cycle graph4 6 = [] ∧
     digraph_find_cycle graph4 0 =
       [⟨1, 1, 2, "", ""⟩, ⟨2, 2, 3, "", ""⟩, ⟨3, 3, 1, "", ""⟩]) ∧
    (∀ (g : CGraph) (source : Nat) (c : List (Nat × Nat)),
      find_cycle_pairs g source = c → c ≠ [] →
      GoodCycle g source c ∧ (∀ uv ∈ c, g.edgesBetween uv.1 uv.2 ≠ [])) ∧
    (∀ (g : CGraph) (source : Nat),
      (∀ se ∈ g.edges, se.tgt ∈ univF g) →
      find_cycle_pairs g source = [] →
      ∀ (u : Nat) (l : List Nat), DReach g source u → ¬DirCycle g u l) := by
  refine ⟨⟨by decide, by decide, by decide⟩, ?_, ?_⟩
  · intro g source c hfind hne
    unfold find_cycle_pairs at hfind
    rcases hv : dfsVisit g (g.num_nodes + 1) [source] source [] with c' | r
    · rw [hv] at hfind
      subst hfind
      have hgood : GoodCycle g source c' :=
        dfs_visit_sound g source (g.num_nodes + 1) [source] source [] c'
          (List.chain'_singleton source) rfl rfl
          (fun x hx => by
            rw [List.mem_singleton.mp hx]
            exact Relation.ReflTransGen.refl) hv
      refine ⟨hgood, ?_⟩
      intro uv huv
      exact (dirAdj_iff_edgesBetween_ne g uv.1 uv.2).mp (hgood.edgesBack uv huv)
    · rw [hv] at hfind
      exact absurd hfind.symm hne
  · intro g source HEt hfind u l hreach hcyc
    unfold find_cycle_pairs at hfind
    rcases hv : dfsVisit g (g.num_nodes + 1) [source] source [] with c' | r
    · rw [hv] at hfind
      have hgood : GoodCycle g source c' :=
        dfs_visit_sound g source (g.num_nodes + 1) [source] source [] c'
          (List.chain'_singleton source) rfl rfl
          (fun x hx => by
            rw [List.mem_singleton.mp hx]
            exact Relation.ReflTransGen.refl) hv
      exact hgood.nonempty hfind
    · have hcard : (univF g).card ≤ g.num_nodes := by
        have := List.toFinset_card_le g.nodeIds
        simpa [univF, Store.nodeIds, Store.num_nodes] using this
      have hpost := dfs_visit_complete g source HEt (g.num_nodes + 1)
        [source] source [] r (by simp; omega) (List.nodup_singleton source)
        rfl rfl (fun x hx => Or.inr (List.mem_singleton.mp hx))
        (fun x _ => List.not_mem_nil x) List.nodup_nil
        (fun x hx => absurd hx (List.not_mem_nil x)) hv
      obtain ⟨-, hsrc, -, -, hord⟩ := hpost
      have hu : u ∈ r := ord_closed_reach g r hord source hsrc u hreach
      exact ord_no_dircycle g r hord u hu l hcyc

theorem c9_find_cycle_scoped_witness :
    (GoodCycle graph4 5 [(5, 4), (4, 5)] ∧
      (∀ uv ∈ [(5, 4), (4, 5)], graph4.edgesBetween uv.1 uv.2 ≠ [])) ∧
    (∀ (u : Nat) (l : List Nat), DReach graph4 6 u → ¬DirCycle graph4 u l) :=
  ⟨c9_find_cycle_scoped.2.1 graph4 5 [(5, 4), (4, 5)] (by decide) (by decide),
   c9_find_cycle_scoped.2.2 graph4 6 (by decide) (by decide)⟩
